import Mathlib

/-!
Formal model of the DeviceApplier batch-targeting tool, covering the parallel
variant (source file `google_ads_bot parallel.py`) and the single-run variant
(`google_ads_bot.py`).  Pure helpers are translated directly.  The UI session
is modelled by explicit state passing over a list of tree items, fallible
driver operations by an `Except`-valued body wrapped in the same
catch-and-ignore structure as the source, and the worker loop by an explicit
event trace.
-/

namespace DeviceApplier

/-! ### Configuration constants, from the CONFIG block of the parallel source -/

def WORKERS : Nat := 3

def MAX_RETRIES : Nat := 3

def RESET_EVERY : Nat := 2

/-! ### Task Partitioner

`chunk_list(lst, n)` in the source computes `size = (len(lst) + n - 1) // n`
and then yields `lst[i:i+size]` for `i in range(0, len(lst), size)`.

`chunksOf size l` reproduces the slicing loop for `size ≥ 1`.  Python's
`range(0, len(lst), 0)` raises `ValueError` when the step `size` is zero
(which happens exactly when `lst` is empty and `n ≥ 1`), and `... // 0`
raises `ZeroDivisionError`; both error paths are modelled by `Except.error`.
-/

def chunksOf : Nat → List α → List (List α)
  | _, [] => []
  | 0, _ :: _ => []
  | size + 1, x :: xs =>
    (x :: xs).take (size + 1) :: chunksOf (size + 1) ((x :: xs).drop (size + 1))
termination_by _ l => l.length
decreasing_by
  simp [List.length_drop]
  omega

def chunk_list (lst : List α) (n : Nat) : Except String (List (List α)) :=
  if n = 0 then Except.error "ZeroDivisionError: integer division or modulo by zero"
  else if (lst.length + n - 1) / n = 0 then
    Except.error "ValueError: range arg 3 must not be zero"
  else Except.ok (chunksOf ((lst.length + n - 1) / n) lst)

theorem chunksOf_flatten (size : Nat) :
    ∀ l : List α, (chunksOf (size + 1) l).flatten = l
  | [] => by simp [chunksOf]
  | x :: xs => by
    simp only [chunksOf, List.flatten_cons]
    rw [chunksOf_flatten size ((x :: xs).drop (size + 1))]
    exact List.take_append_drop ..
termination_by l => l.length
decreasing_by
  simp [List.length_drop]
  omega

theorem chunksOf_mem (size : Nat) :
    ∀ l c : List α, c ∈ chunksOf (size + 1) l → c ≠ [] ∧ c.length ≤ size + 1
  | [], c, hc => by simp [chunksOf] at hc
  | x :: xs, c, hc => by
    simp only [chunksOf, List.mem_cons] at hc
    rcases hc with h | h
    · constructor
      · simp [h, List.take_succ_cons]
      · simp [h, List.length_take]
    · exact chunksOf_mem size ((x :: xs).drop (size + 1)) c h
termination_by l c _ => l.length
decreasing_by
  simp [List.length_drop]
  omega

theorem chunksOf_eq_nil_iff (size : Nat) (l : List α) :
    chunksOf (size + 1) l = [] ↔ l = [] := by
  cases l <;> simp [chunksOf]

theorem chunksOf_dropLast_length (size : Nat) :
    ∀ l c : List α, c ∈ (chunksOf (size + 1) l).dropLast → c.length = size + 1
  | [], c, hc => by simp [chunksOf] at hc
  | x :: xs, c, hc => by
    simp only [chunksOf] at hc
    by_cases hrest : (x :: xs).drop (size + 1) = []
    · rw [hrest] at hc
      simp [chunksOf] at hc
    · rcases hr : chunksOf (size + 1) ((x :: xs).drop (size + 1)) with _ | ⟨r, rs⟩
      · exact absurd ((chunksOf_eq_nil_iff size _).mp hr) hrest
      · rw [hr, List.dropLast_cons₂, List.mem_cons] at hc
        rcases hc with h | h
        · have hlen : size + 1 < (x :: xs).length := by
            by_contra hle
            exact hrest (List.drop_eq_nil_of_le (by omega))
          simp only [List.length_cons] at hlen
          simp [h, List.length_take]
          omega
        · rw [← hr] at h
          exact chunksOf_dropLast_length size ((x :: xs).drop (size + 1)) c h
termination_by l c _ => l.length
decreasing_by
  simp [List.length_drop]
  omega

theorem chunksOf_length_le (size : Nat) :
    ∀ l : List α, (chunksOf (size + 1) l).length ≤ (l.length + size) / (size + 1)
  | [] => by simp [chunksOf]
  | x :: xs => by
    simp only [chunksOf, List.length_cons]
    by_cases hle : xs.length + 1 ≤ size + 1
    · rw [List.drop_eq_nil_of_le (by simp only [List.length_cons]; omega)]
      simp only [chunksOf, List.length_nil]
      have h1 : 1 * (size + 1) ≤ xs.length + 1 + size := by omega
      have h2 := (Nat.le_div_iff_mul_le (show 0 < size + 1 by omega)).mpr h1
      omega
    · have hrec := chunksOf_length_le size ((x :: xs).drop (size + 1))
      rw [List.length_drop] at hrec
      simp only [List.length_cons] at hrec
      have hm : xs.length + 1 - (size + 1) + size = xs.length := by omega
      rw [hm] at hrec
      have hd := Nat.add_div_right xs.length (show 0 < size + 1 by omega)
      have harg : xs.length + (size + 1) = xs.length + 1 + size := by omega
      rw [harg] at hd
      omega
termination_by l => l.length
decreasing_by
  simp [List.length_drop]
  omega

/-- Claim C2 as literally stated fails on the code: on the empty input list
(with worker count 1) `chunk_list` does not produce any chunks at all — the
generator raises `ValueError` because the computed chunk size is `0` — so in
particular it produces no chunks whose concatenation is the input. -/
theorem chunk_list_empty_input_no_chunks :
    ¬ ∃ cs : List (List String), chunk_list ([] : List String) 1 = Except.ok cs := by
  intro ⟨cs, h⟩
  simp [chunk_list] at h

/-- Claim C2 (amended to non-empty input lists): for every non-empty input
list and worker count `n ≥ 1`, `chunk_list` succeeds and yields contiguous
chunks whose concatenation in yield order is exactly the input list (hence
each element appears exactly once, in original order, and chunks are
pairwise disjoint as index ranges); every chunk except possibly the last has
length `ceil(len/n) = (len + n - 1) / n`, and every chunk (in particular the
last) has length at most that. -/
theorem chunk_list_partitions (lst : List α) (n : Nat)
    (hne : lst ≠ []) (hn : 1 ≤ n) :
    ∃ cs, chunk_list lst n = Except.ok cs ∧
      cs.flatten = lst ∧
      (∀ c ∈ cs.dropLast, c.length = (lst.length + n - 1) / n) ∧
      (∀ c ∈ cs, c.length ≤ (lst.length + n - 1) / n) := by
  have hn0 : n ≠ 0 := by omega
  have hlen : 1 ≤ lst.length := List.length_pos.mpr hne
  have hpos : 1 ≤ (lst.length + n - 1) / n := by
    apply (Nat.le_div_iff_mul_le (show 0 < n by omega)).mpr
    omega
  obtain ⟨s, hs⟩ : ∃ s, (lst.length + n - 1) / n = s + 1 :=
    ⟨(lst.length + n - 1) / n - 1, by omega⟩
  refine ⟨chunksOf ((lst.length + n - 1) / n) lst, ?_, ?_, ?_, ?_⟩
  · simp only [chunk_list, if_neg hn0]
    rw [if_neg (show ¬(lst.length + n - 1) / n = 0 by omega)]
  · rw [hs]
    exact chunksOf_flatten s lst
  · intro c hc
    rw [hs] at hc ⊢
    exact chunksOf_dropLast_length s lst c hc
  · intro c hc
    rw [hs] at hc ⊢
    exact (chunksOf_mem s lst c hc).2

/-- Witness for `chunk_list_partitions`: the spec's own end-to-end example,
five campaigns over two workers, yielding chunk sizes 3 and 2. -/
theorem chunk_list_partitions_witness :
    ∃ cs, chunk_list ["A", "B", "C", "D", "E"] 2 = Except.ok cs ∧
      cs.flatten = ["A", "B", "C", "D", "E"] ∧
      (∀ c ∈ cs.dropLast, c.length = 3) ∧
      (∀ c ∈ cs, c.length ≤ 3) := by
  have h := chunk_list_partitions ["A", "B", "C", "D", "E"] 2 (by simp) (by omega)
  simpa using h

/-- Claim C3: the code contradicts the spec here.  On an empty campaign list
(as produced by a missing or empty `campaigns.txt`) and any worker count
`n ≥ 1`, the chunk size is `(0 + n - 1) / n = 0`, so consuming the
`chunk_list` generator raises `ValueError: range() arg 3 must not be zero`
instead of yielding zero work. -/
theorem chunk_list_empty_input_raises (n : Nat) (hn : 1 ≤ n) :
    chunk_list ([] : List String) n =
      Except.error "ValueError: range arg 3 must not be zero" := by
  have h0 : (([] : List String).length + n - 1) / n = 0 :=
    Nat.div_eq_of_lt (by simp; omega)
  simp only [chunk_list, if_neg (show n ≠ 0 by omega)]
  rw [if_pos h0]

/-- Witness for `chunk_list_empty_input_raises` at the configured worker
count `WORKERS = 3`, the exact situation `main()` reaches when
`campaigns.txt` is absent. -/
theorem chunk_list_empty_input_raises_witness :
    chunk_list ([] : List String) WORKERS =
      Except.error "ValueError: range arg 3 must not be zero" :=
  chunk_list_empty_input_raises WORKERS (by decide)

/-- Claim C10: for every non-empty input list and worker count `n ≥ 1`,
`chunk_list` succeeds with at most `n` chunks, all of them non-empty;
consequently `main()` spawns at most `WORKERS` worker processes and never
spawns a worker with an empty partition. -/
theorem chunk_list_worker_bound (lst : List α) (n : Nat)
    (hne : lst ≠ []) (hn : 1 ≤ n) :
    ∃ cs, chunk_list lst n = Except.ok cs ∧
      cs.length ≤ n ∧ ∀ c ∈ cs, c ≠ [] := by
  have hn0 : n ≠ 0 := by omega
  have hlen : 1 ≤ lst.length := List.length_pos.mpr hne
  have hpos : 1 ≤ (lst.length + n - 1) / n := by
    apply (Nat.le_div_iff_mul_le (show 0 < n by omega)).mpr
    omega
  obtain ⟨s, hs⟩ : ∃ s, (lst.length + n - 1) / n = s + 1 :=
    ⟨(lst.length + n - 1) / n - 1, by omega⟩
  refine ⟨chunksOf ((lst.length + n - 1) / n) lst, ?_, ?_, ?_⟩
  · simp only [chunk_list, if_neg hn0]
    rw [if_neg (show ¬(lst.length + n - 1) / n = 0 by omega)]
  · rw [hs]
    have hbound := chunksOf_length_le s lst
    have hdm := Nat.div_add_mod (lst.length + n - 1) n
    have hmod : (lst.length + n - 1) % n < n := Nat.mod_lt _ (by omega)
    rw [hs] at hdm
    have hmul : lst.length ≤ n * (s + 1) := by omega
    have hfin : (lst.length + s) / (s + 1) ≤ n := by
      have hlt : lst.length + s < (s + 1) * (n + 1) := by
        rw [Nat.mul_succ]
        rw [Nat.mul_comm] at hmul
        omega
      have := (Nat.div_lt_iff_lt_mul (show 0 < s + 1 by omega)).mpr
        (by rw [Nat.mul_comm]; exact hlt)
      omega
    omega
  · intro c hc
    rw [hs] at hc
    exact (chunksOf_mem s lst c hc).1

/-- Witness for `chunk_list_worker_bound`: four campaigns over the default
three workers give at most three non-empty chunks. -/
theorem chunk_list_worker_bound_witness :
    ∃ cs, chunk_list ["A", "B", "C", "D"] WORKERS = Except.ok cs ∧
      cs.length ≤ WORKERS ∧ ∀ c ∈ cs, c ≠ [] :=
  chunk_list_worker_bound ["A", "B", "C", "D"] WORKERS (by simp) (by decide)

/-! ### read_lines

`read_lines(path)` returns `[]` when the file is absent, else
`[l.strip() for l in f if l.strip()]`.  The filesystem is modelled as an
`Option String`: `none` for a missing file, `some contents` for its text.
Text-mode iteration splits on universal newlines; `str.strip()` removes
Python's ASCII whitespace from both ends. -/

def pyIsSpace (c : Char) : Bool :=
  c == ' ' || c == '\t' || c == '\n' || c == '\r' || c == '\x0b' || c == '\x0c'

def pyStripChars (l : List Char) : List Char :=
  ((l.dropWhile pyIsSpace).reverse.dropWhile pyIsSpace).reverse

def pyStrip (s : String) : String :=
  String.mk (pyStripChars s.data)

/-- Splitting into lines with universal-newline treatment: `\r\n`, `\r` and
`\n` all end a line (terminators are not kept; a trailing terminator yields a
final empty line, which `read_lines` filters out anyway). -/
def pyLinesAux : List Char → List Char → List (List Char)
  | [], acc => [acc.reverse]
  | '\r' :: '\n' :: rest, acc => acc.reverse :: pyLinesAux rest []
  | '\r' :: rest, acc => acc.reverse :: pyLinesAux rest []
  | '\n' :: rest, acc => acc.reverse :: pyLinesAux rest []
  | c :: rest, acc => pyLinesAux rest (c :: acc)

def pyLines (s : String) : List String :=
  (pyLinesAux s.data []).map String.mk

def read_lines (file : Option String) : List String :=
  match file with
  | none => []
  | some contents => ((pyLines contents).map pyStrip).filter (fun l => l ≠ "")

theorem dropWhile_head?_not (p : α → Bool) (l : List α) (c : α)
    (h : (l.dropWhile p).head? = some c) : p c = false := by
  have hne : l.dropWhile p ≠ [] := by
    intro hnil
    rw [hnil] at h
    simp at h
  have hhead := List.head_dropWhile_not p l hne
  rw [List.head?_eq_head hne] at h
  simp only [Option.some_inj] at h
  rw [← h]
  simpa using hhead

theorem suffix_getLast? (l₁ l₂ : List α) (h : l₁ <:+ l₂) (hne : l₁ ≠ []) :
    l₁.getLast? = l₂.getLast? := by
  obtain ⟨v, rfl⟩ := h
  exact (List.getLast?_append_of_ne_nil v hne).symm

theorem pyStripChars_head? (l : List Char) (c : Char)
    (h : (pyStripChars l).head? = some c) : pyIsSpace c = false := by
  unfold pyStripChars at h
  rw [List.head?_reverse] at h
  have hne : (l.dropWhile pyIsSpace).reverse.dropWhile pyIsSpace ≠ [] := by
    intro hnil
    rw [hnil] at h
    simp at h
  have hsuf := List.dropWhile_suffix (l := (l.dropWhile pyIsSpace).reverse) pyIsSpace
  rw [suffix_getLast? _ _ hsuf hne, List.getLast?_reverse] at h
  exact dropWhile_head?_not pyIsSpace l c h

theorem pyStripChars_getLast? (l : List Char) (c : Char)
    (h : (pyStripChars l).getLast? = some c) : pyIsSpace c = false := by
  unfold pyStripChars at h
  rw [List.getLast?_reverse] at h
  exact dropWhile_head?_not pyIsSpace _ c h

theorem pyStripChars_all_space (l : List Char)
    (h : ∀ c ∈ l, pyIsSpace c = true) : pyStripChars l = [] := by
  unfold pyStripChars
  have h1 : l.dropWhile pyIsSpace = [] := by
    rw [List.dropWhile_eq_nil_iff]
    intro x hx
    exact h x hx
  rw [h1]
  simp

/-- Claim C9: `read_lines` returns `[]` for a missing file instead of
raising; for an existing file it returns exactly the file's lines, each
stripped of leading and trailing whitespace, with whitespace-only lines
omitted; hence no returned string is empty, starts with whitespace, or ends
with whitespace; and a whitespace-only line strips to the empty string (so
it is omitted by the filter). -/
theorem read_lines_spec :
    read_lines none = [] ∧
    (∀ contents : String, read_lines (some contents) =
      ((pyLines contents).map pyStrip).filter (fun l => l ≠ "")) ∧
    (∀ contents : String, ∀ s ∈ read_lines (some contents),
      s ≠ "" ∧
      (∀ c, s.data.head? = some c → pyIsSpace c = false) ∧
      (∀ c, s.data.getLast? = some c → pyIsSpace c = false)) ∧
    (∀ line : String, (∀ c ∈ line.data, pyIsSpace c = true) → pyStrip line = "") := by
  refine ⟨rfl, fun _ => rfl, ?_, ?_⟩
  · intro contents s hs
    simp only [read_lines, List.mem_filter, List.mem_map, decide_not] at hs
    obtain ⟨⟨x, _hx, hsx⟩, hne⟩ := hs
    refine ⟨by simpa using hne, ?_, ?_⟩
    · intro c hc
      rw [← hsx] at hc
      exact pyStripChars_head? x.data c hc
    · intro c hc
      rw [← hsx] at hc
      exact pyStripChars_getLast? x.data c hc
  · intro line hline
    have h := pyStripChars_all_space line.data hline
    unfold pyStrip
    rw [h]

/-- Witness for `read_lines_spec` on a concrete five-character-per-line
file: padded lines are stripped, blank and whitespace-only lines vanish, and
a missing file yields the empty list. -/
theorem read_lines_spec_witness :
    read_lines (some "  M1 \n\n \t\nM2") = ["M1", "M2"] ∧ pyIsSpace 'M' = false := by
  constructor
  · rw [read_lines_spec.2.1 "  M1 \n\n \t\nM2"]
    decide
  · exact (read_lines_spec.2.2.1 "  M1 \n\n \t\nM2" "M1" (by decide)).2.1 'M' (by decide)

/-! ### Retry Supervisor — safe_apply

`safe_apply` loops `attempt` from 1 to `MAX_RETRIES`.  A successful
`apply_targeting` writes one SAVED row carrying the returned counts and
returns.  A raised exception writes one RETRY row with blank counts and the
exception class name; at `attempt == MAX_RETRIES` it additionally writes one
SKIPPED row and returns, otherwise it sleeps `2 * attempt` seconds and goes
round again.

The Attempt Executor is abstracted as an oracle `execA : Nat → Except String
(Nat × Nat)` giving, per attempt number, either the `(applied, skipped)`
counts of a successful `apply_targeting` call or the raised exception's
class name.  The result is the list of ledger rows written, paired with the
list of back-off sleeps performed.  Timestamps, the worker id and the
campaign id are constants of one `safe_apply` call and are omitted from the
row model. -/

inductive Status where
  | SAVED
  | RETRY
  | SKIPPED
deriving DecidableEq, Repr

structure Row where
  attempt : Nat
  applied : Option Nat
  skipped : Option Nat
  status : Status
  message : String
deriving DecidableEq, Repr

def safe_apply_from (execA : Nat → Except String (Nat × Nat)) (attempt : Nat) :
    List Row × List Nat :=
  if _h1 : MAX_RETRIES < attempt then ([], [])
  else
    match execA attempt with
    | Except.ok (a, s) =>
      ([⟨attempt, some a, some s, Status.SAVED, "OK"⟩], [])
    | Except.error e =>
      if _h2 : attempt = MAX_RETRIES then
        ([⟨attempt, none, none, Status.RETRY, e⟩,
          ⟨attempt, none, none, Status.SKIPPED, "MAX_RETRIES"⟩], [])
      else
        let rest := safe_apply_from execA (attempt + 1)
        (⟨attempt, none, none, Status.RETRY, e⟩ :: rest.1, 2 * attempt :: rest.2)
termination_by MAX_RETRIES + 1 - attempt
decreasing_by omega

def safe_apply (execA : Nat → Except String (Nat × Nat)) : List Row × List Nat :=
  safe_apply_from execA 1

/-- Claim C1: with a permanently failing Attempt Executor, `safe_apply`
makes exactly `MAX_RETRIES = 3` attempts, writes one RETRY row per attempt
(numbered 1, 2, 3) followed by exactly one terminal SKIPPED row carrying
attempt number 3, and sleeps `2 * n` seconds after each non-final failed
attempt (so sleeps `[2, 4]`).  With an Executor that first succeeds on
attempt `n ≤ MAX_RETRIES`, it writes RETRY rows for attempts `1 .. n-1`,
then exactly one SAVED row with attempt number `n`, makes no further
attempts, and sleeps `2 * k` after each failed attempt `k < n`. -/
theorem safe_apply_retry_spec (execA : Nat → Except String (Nat × Nat)) :
    ((∀ k, (execA k).isOk = false) →
      (safe_apply execA).1.map (fun r => (r.attempt, r.status, r.applied, r.skipped)) =
        [(1, Status.RETRY, none, none), (2, Status.RETRY, none, none),
         (3, Status.RETRY, none, none), (3, Status.SKIPPED, none, none)] ∧
      (safe_apply execA).2 = [2, 4]) ∧
    (∀ n a s, 1 ≤ n → n ≤ MAX_RETRIES → execA n = Except.ok (a, s) →
      (∀ k, 1 ≤ k → k < n → (execA k).isOk = false) →
      ∃ pre, (safe_apply execA).1 = pre ++ [⟨n, some a, some s, Status.SAVED, "OK"⟩] ∧
        pre.map (fun r => (r.attempt, r.status, r.applied, r.skipped)) =
          (List.range (n - 1)).map
            (fun k => (k + 1, Status.RETRY, (none : Option Nat), (none : Option Nat))) ∧
        (safe_apply execA).2 = (List.range (n - 1)).map (fun k => 2 * (k + 1))) := by
  constructor
  · intro hfail
    have herr : ∀ k, ∃ e, execA k = Except.error e := by
      intro k
      cases hk : execA k with
      | ok v =>
        have := hfail k
        rw [hk] at this
        simp [Except.isOk, Except.toBool] at this
      | error e => exact ⟨e, rfl⟩
    obtain ⟨e1, h1⟩ := herr 1
    obtain ⟨e2, h2⟩ := herr 2
    obtain ⟨e3, h3⟩ := herr 3
    constructor <;>
      simp [safe_apply, safe_apply_from, h1, h2, h3, MAX_RETRIES]
  · intro n a s hn1 hn3 hok hprev
    have herr : ∀ k, 1 ≤ k → k < n → ∃ e, execA k = Except.error e := by
      intro k hk1 hk2
      cases hk : execA k with
      | ok v =>
        have := hprev k hk1 hk2
        rw [hk] at this
        simp [Except.isOk, Except.toBool] at this
      | error e => exact ⟨e, rfl⟩
    have hn3' : n ≤ 3 := hn3
    interval_cases n
    · refine ⟨[], ?_, by simp, ?_⟩ <;>
        simp [safe_apply, safe_apply_from, hok, MAX_RETRIES]
    · obtain ⟨e1, h1⟩ := herr 1 (by omega) (by omega)
      refine ⟨[⟨1, none, none, Status.RETRY, e1⟩], ?_, ?_, ?_⟩ <;>
        simp [safe_apply, safe_apply_from, h1, hok, MAX_RETRIES,
          List.range_succ]
    · obtain ⟨e1, h1⟩ := herr 1 (by omega) (by omega)
      obtain ⟨e2, h2⟩ := herr 2 (by omega) (by omega)
      refine ⟨[⟨1, none, none, Status.RETRY, e1⟩, ⟨2, none, none, Status.RETRY, e2⟩],
          ?_, ?_, ?_⟩ <;>
        simp [safe_apply, safe_apply_from, h1, h2, hok, MAX_RETRIES,
          List.range_succ]

/-- Witness for `safe_apply_retry_spec`: a concrete always-failing Executor
produces the 3-RETRY-plus-SKIPPED ledger, and an Executor succeeding on its
second attempt produces one RETRY row then the SAVED row with the returned
counts. -/
theorem safe_apply_retry_spec_witness :
    ((safe_apply (fun _ => Except.error "TimeoutError")).1.map
        (fun r => (r.attempt, r.status, r.applied, r.skipped)) =
      [(1, Status.RETRY, none, none), (2, Status.RETRY, none, none),
       (3, Status.RETRY, none, none), (3, Status.SKIPPED, none, none)]) ∧
    ((safe_apply (fun k => if k = 2 then Except.ok (4, 1)
        else Except.error "TimeoutError")).1.map
        (fun r => (r.attempt, r.status, r.applied, r.skipped)) =
      [(1, Status.RETRY, none, none), (2, Status.SAVED, some 4, some 1)]) := by
  constructor
  · exact ((safe_apply_retry_spec (fun _ => Except.error "TimeoutError")).1
      (fun _ => rfl)).1
  · obtain ⟨pre, hpre, hmap, _⟩ :=
      (safe_apply_retry_spec (fun k => if k = 2 then Except.ok (4, 1)
        else Except.error "TimeoutError")).2 2 4 1 (by omega) (by decide)
        (by rfl) (by intro k hk1 hk2; interval_cases k; rfl)
    rw [hpre, List.map_append, hmap]
    simp [List.range_succ]

theorem safe_apply_from_rows (execA : Nat → Except String (Nat × Nat)) :
    ∀ (attempt : Nat) (r : Row), r ∈ (safe_apply_from execA attempt).1 →
      ((r.status = Status.RETRY ∨ r.status = Status.SKIPPED) →
        r.applied = none ∧ r.skipped = none) ∧
      (r.status = Status.SAVED →
        ∃ a s, execA r.attempt = Except.ok (a, s) ∧
          r.applied = some a ∧ r.skipped = some s)
  | attempt, r, hr => by
    unfold safe_apply_from at hr
    split at hr
    · simp at hr
    · split at hr
      · rename_i a s heq
        simp at hr
        subst hr
        refine ⟨fun hc => ?_, fun _ => ⟨a, s, heq, rfl, rfl⟩⟩
        rcases hc with hc | hc <;> simp at hc
      · rename_i e heq
        split at hr
        · simp at hr
          rcases hr with h | h <;> subst h <;>
            exact ⟨fun _ => ⟨rfl, rfl⟩, fun hs => by simp at hs⟩
        · simp at hr
          rcases hr with h | h
          · subst h
            exact ⟨fun _ => ⟨rfl, rfl⟩, fun hs => by simp at hs⟩
          · exact safe_apply_from_rows execA (attempt + 1) r h
termination_by attempt r _ => MAX_RETRIES + 1 - attempt
decreasing_by omega

/-- Claim C8: every ledger row written by `safe_apply` with status RETRY or
SKIPPED has blank applied and skipped count fields, while every SAVED row
carries exactly the counts returned by the Attempt Executor on that row's
attempt number. -/
theorem safe_apply_row_fields (execA : Nat → Except String (Nat × Nat)) (r : Row)
    (hr : r ∈ (safe_apply execA).1) :
    ((r.status = Status.RETRY ∨ r.status = Status.SKIPPED) →
      r.applied = none ∧ r.skipped = none) ∧
    (r.status = Status.SAVED →
      ∃ a s, execA r.attempt = Except.ok (a, s) ∧
        r.applied = some a ∧ r.skipped = some s) :=
  safe_apply_from_rows execA 1 r hr

/-- Witness for `safe_apply_row_fields`: the first RETRY row of an
always-failing run has blank counts, and the SAVED row of an immediately
succeeding run carries the Executor's counts `(5, 2)`. -/
theorem safe_apply_row_fields_witness :
    ((⟨1, none, none, Status.RETRY, "TimeoutError"⟩ : Row).applied = none ∧
     (⟨1, none, none, Status.RETRY, "TimeoutError"⟩ : Row).skipped = none) ∧
    (∃ a s, (Except.ok (5, 2) : Except String (Nat × Nat)) = Except.ok (a, s) ∧
      (⟨1, some 5, some 2, Status.SAVED, "OK"⟩ : Row).applied = some a ∧
      (⟨1, some 5, some 2, Status.SAVED, "OK"⟩ : Row).skipped = some s) := by
  constructor
  · exact (safe_apply_row_fields (fun _ => Except.error "TimeoutError")
      ⟨1, none, none, Status.RETRY, "TimeoutError"⟩
      (by simp [safe_apply, safe_apply_from, MAX_RETRIES])).1 (Or.inl rfl)
  · exact (safe_apply_row_fields (fun _ => Except.ok (5, 2))
      ⟨1, some 5, some 2, Status.SAVED, "OK"⟩
      (by simp [safe_apply, safe_apply_from, MAX_RETRIES])).2 rfl

/-! ### Selection Engine — expand_brand and check_model

The modal's tree is modelled as a list of tree items carrying the DOM
attributes the source reads: `aria-label` (`label`), the row text matched by
Playwright's `has_text` substring filter (`text`), `aria-expanded`
(`expanded`), the row checkbox's `aria-checked` (`checked`), and visibility
of the zippy chevron icon (`zippyVisible`).  Clicking a row toggles its
checkbox; clicking a chevron expands the row.

Every Playwright call can raise.  A call's outcome is an `OpFail` oracle
value naming which driver operation (if any) raises during that call; the
`_run` functions are the `try` bodies, returning `Except.error` exactly
where the source would raise, and `expand_brand` / `check_model` add the
source's `except: pass` / `except: return False` handlers. -/

inductive OpFail where
  | ok
  | lookupFail
  | attrFail
  | visFail
  | scrollFail
  | clickFail
deriving DecidableEq, Repr

structure TreeItem where
  label : String
  text : String
  expanded : Bool
  checked : Bool
  zippyVisible : Bool
deriving DecidableEq, Repr

/-- Playwright's `filter(has_text=model)` keeps rows whose text contains the
model string as a substring. -/
def itemMatches (model : String) (it : TreeItem) : Bool :=
  decide (model.toList <:+: it.text.toList)

/-- Index of the first matching row, as selected by `.first`. -/
def findFirst (p : α → Bool) : List α → Option Nat
  | [] => none
  | x :: xs => if p x then some 0 else (findFirst p xs).map (· + 1)

/-- `row.click()` on a tree row toggles its checkbox state. -/
def toggleAt (items : List TreeItem) (i : Nat) : List TreeItem :=
  match items[i]? with
  | some it => items.set i { it with checked := !it.checked }
  | none => items

def check_model_run (f : OpFail) (items : List TreeItem) (model : String) :
    Except String (Bool × List TreeItem) :=
  if f = OpFail.lookupFail then Except.error "locator lookup raised"
  else
    match findFirst (itemMatches model) items with
    | none => Except.ok (false, items)
    | some i =>
      if f = OpFail.attrFail then Except.error "get_attribute raised"
      else
        match items[i]? with
        | none => Except.error "stale element handle"
        | some it =>
          if it.checked then Except.ok (false, items)
          else if f = OpFail.scrollFail then Except.error "scroll_into_view raised"
          else if f = OpFail.clickFail then Except.error "click raised"
          else Except.ok (true, toggleAt items i)

def check_model (f : OpFail) (items : List TreeItem) (model : String) :
    Bool × List TreeItem :=
  match check_model_run f items model with
  | Except.ok r => r
  | Except.error _ => (false, items)

def expand_brand_run (f : OpFail) (items : List TreeItem) (name : String) :
    Except String (List TreeItem) :=
  if f = OpFail.lookupFail then Except.error "locator lookup raised"
  else
    match findFirst (fun it => it.label == name && !it.expanded) items with
    | none => Except.ok items
    | some i =>
      if f = OpFail.visFail then Except.error "is_visible raised"
      else
        match items[i]? with
        | none => Except.error "stale element handle"
        | some it =>
          if !it.zippyVisible then Except.ok items
          else if f = OpFail.scrollFail then Except.error "scroll_into_view raised"
          else if f = OpFail.clickFail then Except.error "click raised"
          else Except.ok (items.set i { it with expanded := true })

def expand_brand (f : OpFail) (items : List TreeItem) (name : String) :
    List TreeItem :=
  match expand_brand_run f items name with
  | Except.ok items2 => items2
  | Except.error _ => items

/-- Fixed ancestor-expansion order declared in `apply_targeting`. -/
def brands : List String :=
  ["Android", "iOS", "Windows Phone", "Other/Unknown", "Unknown",
   "Apple", "Samsung", "Xiaomi", "OPPO", "Realme", "Vivo",
   "Infinix", "Tecno", "HUAWEI", "Google", "Sony",
   "Nokia", "Motorola", "Lenovo", "LG"]

def expandAll (fails : Nat → OpFail) : List TreeItem → List String → List TreeItem
  | items, [] => items
  | items, b :: bs => expandAll (fun i => fails (i + 1)) (expand_brand (fails 0) items b) bs

/-- The selection loop of `apply_targeting`: `applied`/`skipped` counters
over the model list, threading the tree state; `fails k` is the driver
outcome of the `check_model` call for the k-th model. -/
def selectModels (fails : Nat → OpFail) :
    List TreeItem → List String → Nat × Nat × List TreeItem
  | items, [] => (0, 0, items)
  | items, m :: ms =>
    let r := check_model (fails 0) items m
    let rest := selectModels (fun i => fails (i + 1)) r.2 ms
    if r.1 then (rest.1 + 1, rest.2.1, rest.2.2) else (rest.1, rest.2.1 + 1, rest.2.2)

/-- Expansion phase followed by the selection loop.  Navigation, the modal
wait, and the Done/Save commits surrounding this core are the Attempt
Executor boundary, abstracted by the oracle of `safe_apply`. -/
def apply_targeting (failsE failsC : Nat → OpFail) (items : List TreeItem)
    (models : List String) : Nat × Nat × List TreeItem :=
  selectModels failsC (expandAll failsE items brands) models

theorem selectModels_counts (fails : Nat → OpFail) (items : List TreeItem)
    (models : List String) :
    (selectModels fails items models).1 + (selectModels fails items models).2.1 =
      models.length := by
  induction models generalizing fails items with
  | nil => rfl
  | cons m ms ih =>
    simp only [selectModels]
    by_cases hb : (check_model (fails 0) items m).1 = true
    · simp only [hb, if_true]
      have := ih (fun i => fails (i + 1)) (check_model (fails 0) items m).2
      simp only [List.length_cons]
      omega
    · simp only [hb, Bool.false_eq_true, if_false]
      have := ih (fun i => fails (i + 1)) (check_model (fails 0) items m).2
      simp only [List.length_cons]
      omega

theorem set_self_of_getElem? (l : List α) (i : Nat) (a : α) (h : l[i]? = some a) :
    l.set i a = l := by
  induction l generalizing i with
  | nil => simp at h
  | cons x xs ih =>
    cases i with
    | zero =>
      simp at h
      simp [h]
    | succ j =>
      simp at h
      simp [List.set_cons_succ, ih j h]

theorem findFirst_some (p : α → Bool) :
    ∀ (l : List α) (i : Nat), findFirst p l = some i →
      ∃ x, l[i]? = some x ∧ p x = true
  | [], i, h => by simp [findFirst] at h
  | x :: xs, i, h => by
    simp only [findFirst] at h
    by_cases hp : p x = true
    · rw [if_pos hp] at h
      injection h with h
      subst h
      exact ⟨x, by simp, hp⟩
    · rw [if_neg hp] at h
      cases hr : findFirst p xs with
      | none => rw [hr] at h; simp at h
      | some j =>
        rw [hr] at h
        simp at h
        obtain ⟨y, hy, hpy⟩ := findFirst_some p xs j hr
        subst h
        exact ⟨y, by simpa using hy, hpy⟩

theorem findFirst_itemMatches_congr (m : String) :
    ∀ (items₁ items₂ : List TreeItem),
      items₁.map TreeItem.text = items₂.map TreeItem.text →
      findFirst (itemMatches m) items₁ = findFirst (itemMatches m) items₂
  | [], [], _ => rfl
  | [], _ :: _, h => by simp at h
  | _ :: _, [], h => by simp at h
  | x :: xs, y :: ys, h => by
    simp only [List.map_cons, List.cons.injEq] at h
    obtain ⟨hxy, hxs⟩ := h
    simp only [findFirst]
    have hmx : itemMatches m x = itemMatches m y := by
      unfold itemMatches
      rw [hxy]
    rw [hmx, findFirst_itemMatches_congr m xs ys hxs]

/-- State evolution of one `check_model` call: either the tree is unchanged,
or the first matching row was unchecked and exactly that row has been
toggled to checked. -/
theorem check_model_state (f : OpFail) (items : List TreeItem) (m : String) :
    (check_model f items m).2 = items ∨
    ∃ i it, findFirst (itemMatches m) items = some i ∧ items[i]? = some it ∧
      it.checked = false ∧
      (check_model f items m).2 = items.set i { it with checked := true } := by
  by_cases h1 : f = OpFail.lookupFail
  · exact Or.inl (by simp [check_model, check_model_run, h1])
  cases hff : findFirst (itemMatches m) items with
  | none => exact Or.inl (by simp [check_model, check_model_run, h1, hff])
  | some i =>
    by_cases h2 : f = OpFail.attrFail
    · exact Or.inl (by simp [check_model, check_model_run, h1, h2, hff])
    cases hit : items[i]? with
    | none => exact Or.inl (by simp [check_model, check_model_run, h1, h2, hff, hit])
    | some it =>
      by_cases hch : it.checked = true
      · exact Or.inl (by simp [check_model, check_model_run, h1, h2, hff, hit, hch])
      have hch2 : it.checked = false := by
        cases hc : it.checked with
        | false => rfl
        | true => exact absurd hc hch
      by_cases h3 : f = OpFail.scrollFail
      · exact Or.inl (by simp [check_model, check_model_run, h1, h2, h3, hff, hit, hch2])
      by_cases h4 : f = OpFail.clickFail
      · exact Or.inl
          (by simp [check_model, check_model_run, h1, h2, h3, h4, hff, hit, hch2])
      refine Or.inr ⟨i, it, rfl, hit, hch2, ?_⟩
      simp [check_model, check_model_run, toggleAt, h1, h2, h3, h4, hff, hit, hch2]


theorem check_model_map_text (f : OpFail) (items : List TreeItem) (m : String) :
    ((check_model f items m).2).map TreeItem.text = items.map TreeItem.text := by
  rcases check_model_state f items m with h | ⟨i, it, _, hit, _, h⟩
  · rw [h]
  · rw [h, List.map_set]
    exact set_self_of_getElem? _ _ _ (by rw [List.getElem?_map, hit]; rfl)

theorem check_model_preserves_checked (f : OpFail) (items : List TreeItem)
    (m : String) (j : Nat) (itj : TreeItem)
    (hj : items[j]? = some itj) (hch : itj.checked = true) :
    ((check_model f items m).2)[j]? = some itj := by
  rcases check_model_state f items m with h | ⟨i, it, _, hit, hfalse, h⟩
  · rw [h]; exact hj
  · rw [h]
    by_cases hij : i = j
    · subst hij
      rw [hit] at hj
      injection hj with hj
      rw [hj] at hfalse
      rw [hch] at hfalse
      simp at hfalse
    · rw [List.getElem?_set_ne hij]
      exact hj

/-- A model is `satisfied` in a tree when its first matching row, if any, is
already checked (so a further `check_model` call is a no-op). -/
def satisfied (items : List TreeItem) (m : String) : Prop :=
  ∀ i, findFirst (itemMatches m) items = some i →
    ∃ it, items[i]? = some it ∧ it.checked = true

theorem satisfied_check_model_self (items : List TreeItem) (m : String) :
    satisfied ((check_model OpFail.ok items m).2) m := by
  cases hff : findFirst (itemMatches m) items with
  | none =>
    intro j hj
    have hstate : (check_model OpFail.ok items m).2 = items := by
      simp [check_model, check_model_run, hff]
    rw [hstate] at hj
    rw [hff] at hj
    exact absurd hj (by simp)
  | some i =>
    obtain ⟨it, hit, _⟩ := findFirst_some (itemMatches m) items i hff
    by_cases hch : it.checked = true
    · intro j hj
      have hstate : (check_model OpFail.ok items m).2 = items := by
        simp [check_model, check_model_run, hff, hit, hch]
      rw [hstate] at hj ⊢
      rw [hff] at hj
      injection hj with hj
      rw [← hj]
      exact ⟨it, hit, hch⟩
    · have hch2 : it.checked = false := by
        cases hc : it.checked with
        | false => rfl
        | true => exact absurd hc hch
      have hstate : (check_model OpFail.ok items m).2 =
          items.set i { it with checked := true } := by
        simp [check_model, check_model_run, toggleAt, hff, hit, hch2]
      intro j hj
      rw [hstate] at hj ⊢
      have hmapeq : (items.set i { it with checked := true }).map TreeItem.text =
          items.map TreeItem.text := by
        rw [List.map_set]
        exact set_self_of_getElem? _ _ _ (by rw [List.getElem?_map, hit]; rfl)
      rw [findFirst_itemMatches_congr m _ items hmapeq, hff] at hj
      injection hj with hj
      rw [← hj]
      have hlt : i < items.length := (List.getElem?_eq_some_iff.mp hit).1
      exact ⟨{ it with checked := true },
        List.getElem?_set_eq_of_lt _ (by simpa using hlt), rfl⟩

theorem satisfied_stable (f : OpFail) (items : List TreeItem) (m m2 : String)
    (hsat : satisfied items m) : satisfied ((check_model f items m2).2) m := by
  intro j hj
  rw [findFirst_itemMatches_congr m _ items (check_model_map_text f items m2)] at hj
  obtain ⟨itj, hj2, hch⟩ := hsat j hj
  exact ⟨itj, check_model_preserves_checked f items m2 j itj hj2 hch, hch⟩

theorem check_model_of_satisfied (items : List TreeItem) (m : String)
    (hsat : satisfied items m) : check_model OpFail.ok items m = (false, items) := by
  cases hff : findFirst (itemMatches m) items with
  | none => simp [check_model, check_model_run, hff]
  | some i =>
    obtain ⟨it, hit, hch⟩ := hsat i hff
    simp [check_model, check_model_run, hff, hit, hch]

theorem selectModels_state (fails : Nat → OpFail) (items : List TreeItem)
    (m : String) (ms : List String) :
    (selectModels fails items (m :: ms)).2.2 =
      (selectModels (fun i => fails (i + 1)) (check_model (fails 0) items m).2 ms).2.2 := by
  simp only [selectModels]
  by_cases hb : (check_model (fails 0) items m).1 = true
  · simp [hb]
  · simp [hb]

theorem selectModels_satisfied_stable (fails : Nat → OpFail) (m : String) :
    ∀ (items : List TreeItem) (ms : List String), satisfied items m →
      satisfied ((selectModels fails items ms).2.2) m := by
  intro items ms
  induction ms generalizing fails items with
  | nil => intro h; exact h
  | cons m2 ms ih =>
    intro h
    rw [selectModels_state]
    exact ih (fun i => fails (i + 1)) _ (satisfied_stable (fails 0) items m m2 h)

theorem selectModels_post (fails : Nat → OpFail) (hok : ∀ k, fails k = OpFail.ok) :
    ∀ (items : List TreeItem) (ms : List String), ∀ m ∈ ms,
      satisfied ((selectModels fails items ms).2.2) m := by
  intro items ms
  induction ms generalizing fails items with
  | nil => simp
  | cons m0 ms ih =>
    intro m hm
    rw [selectModels_state]
    rcases List.mem_cons.mp hm with rfl | hm2
    · have h1 : satisfied ((check_model (fails 0) items m).2) m := by
        rw [hok 0]
        exact satisfied_check_model_self items m
      exact selectModels_satisfied_stable _ m _ ms h1
    · exact ih (fun i => fails (i + 1)) (fun k => hok (k + 1)) _ m hm2

theorem selectModels_all_satisfied (fails : Nat → OpFail)
    (hok : ∀ k, fails k = OpFail.ok) :
    ∀ (items : List TreeItem) (ms : List String), (∀ m ∈ ms, satisfied items m) →
      selectModels fails items ms = (0, ms.length, items) := by
  intro items ms
  induction ms generalizing fails items with
  | nil => intro _; rfl
  | cons m0 ms ih =>
    intro hall
    have hcm : check_model (fails 0) items m0 = (false, items) := by
      rw [hok 0]
      exact check_model_of_satisfied items m0 (hall m0 (by simp))
    simp only [selectModels, hcm]
    rw [ih (fun i => fails (i + 1)) (fun k => hok (k + 1)) items
      (fun m hm => hall m (by simp [hm]))]
    simp

/-- Claim C4: running the per-leaf selection loop twice in succession on the
same tree state with the same model list yields `applied = 0` on the second
pass — every model that the first pass applied (or that was already
satisfied, or absent) is counted as skipped by the second pass, which also
leaves the tree unchanged. -/
theorem selection_idempotent (items : List TreeItem) (models : List String) :
    (selectModels (fun _ => OpFail.ok)
        ((selectModels (fun _ => OpFail.ok) items models).2.2) models).1 = 0 ∧
    (selectModels (fun _ => OpFail.ok)
        ((selectModels (fun _ => OpFail.ok) items models).2.2) models).2.1 =
      models.length ∧
    (selectModels (fun _ => OpFail.ok)
        ((selectModels (fun _ => OpFail.ok) items models).2.2) models).2.2 =
      (selectModels (fun _ => OpFail.ok) items models).2.2 := by
  have hpost := selectModels_post (fun _ => OpFail.ok) (fun _ => rfl) items models
  have h2 := selectModels_all_satisfied (fun _ => OpFail.ok) (fun _ => rfl)
    ((selectModels (fun _ => OpFail.ok) items models).2.2) models hpost
  rw [h2]
  exact ⟨rfl, rfl, rfl⟩

/-- Claim C7: a driver fault inside one `check_model` call is caught there —
whenever the call body raises, the call returns `(False, unchanged tree)` —
and every fault of an operation `check_model` actually performs (lookup,
attribute read, scroll, click; `visFail` names the `is_visible` call that
only `expand_brand` makes) gives that same result; a fault inside one
`expand_brand` call body likewise leaves the tree unchanged and returns
normally; and for every model list and any fault pattern the selection
loop's `applied + skipped` equals the number of models processed, so one
model's failure never aborts the remaining models. -/
theorem selection_failures_contained :
    (∀ (f : OpFail) (items : List TreeItem) (model e : String),
      check_model_run f items model = Except.error e →
      check_model f items model = (false, items)) ∧
    (∀ (f : OpFail) (items : List TreeItem) (model : String),
      f ≠ OpFail.ok → f ≠ OpFail.visFail →
      check_model f items model = (false, items)) ∧
    (∀ (f : OpFail) (items : List TreeItem) (name e : String),
      expand_brand_run f items name = Except.error e →
      expand_brand f items name = items) ∧
    (∀ (failsE failsC : Nat → OpFail) (items : List TreeItem) (models : List String),
      (apply_targeting failsE failsC items models).1 +
        (apply_targeting failsE failsC items models).2.1 = models.length) := by
  refine ⟨?_, ?_, ?_, ?_⟩
  · intro f items model e h
    unfold check_model
    rw [h]
  · intro f items model hf hfv
    cases hff : findFirst (itemMatches model) items with
    | none =>
      cases f <;> simp [check_model, check_model_run, hff]
    | some i =>
      cases hit : items[i]? with
      | none =>
        cases f <;> simp [check_model, check_model_run, hff, hit]
      | some it =>
        cases hch : it.checked <;> cases f <;>
          first
            | exact absurd rfl hf
            | exact absurd rfl hfv
            | simp [check_model, check_model_run, hff, hit, hch]
  · intro f items name e h
    unfold expand_brand
    rw [h]
  · intro failsE failsC items models
    unfold apply_targeting
    exact selectModels_counts failsC (expandAll failsE items brands) models

/-- Witness for `selection_failures_contained` on a one-row tree: a raising
click during `check_model` yields `(false, tree)` with the tree unchanged, a
raising click during `expand_brand` returns the tree unchanged, and with
those failures `applied + skipped` still equals the number of models. -/
theorem selection_failures_contained_witness :
    check_model OpFail.clickFail [⟨"Pixel 9", "Pixel 9", false, false, false⟩] "Pixel" =
      (false, [⟨"Pixel 9", "Pixel 9", false, false, false⟩]) ∧
    check_model OpFail.attrFail [⟨"Pixel 9", "Pixel 9", false, false, false⟩] "Pixel" =
      (false, [⟨"Pixel 9", "Pixel 9", false, false, false⟩]) ∧
    expand_brand OpFail.clickFail [⟨"Samsung", "Samsung", false, false, true⟩] "Samsung" =
      [⟨"Samsung", "Samsung", false, false, true⟩] ∧
    (apply_targeting (fun _ => OpFail.clickFail) (fun _ => OpFail.clickFail)
        [⟨"Pixel 9", "Pixel 9", false, false, false⟩] ["Pixel", "Nokia G42"]).1 +
      (apply_targeting (fun _ => OpFail.clickFail) (fun _ => OpFail.clickFail)
        [⟨"Pixel 9", "Pixel 9", false, false, false⟩] ["Pixel", "Nokia G42"]).2.1 = 2 := by
  refine ⟨?_, ?_, ?_, ?_⟩
  · exact selection_failures_contained.1 OpFail.clickFail
      [⟨"Pixel 9", "Pixel 9", false, false, false⟩] "Pixel" "click raised" rfl
  · exact selection_failures_contained.2.1 OpFail.attrFail
      [⟨"Pixel 9", "Pixel 9", false, false, false⟩] "Pixel" (by decide) (by decide)
  · exact selection_failures_contained.2.2.1 OpFail.clickFail
      [⟨"Samsung", "Samsung", false, false, true⟩] "Samsung" "click raised" rfl
  · exact selection_failures_contained.2.2.2 (fun _ => OpFail.clickFail)
      (fun _ => OpFail.clickFail) [⟨"Pixel 9", "Pixel 9", false, false, false⟩]
      ["Pixel", "Nokia G42"]

/-! ### Worker loop — reset cadence

`run_worker` iterates `for idx, cid in enumerate(campaigns, 1)`.  At the top
of each iteration, when `idx % RESET_EVERY == 0` it performs the hard reset
(`goto about:blank`, `sleep 2`, `goto template_url`,
`wait_for_load_state`), then unconditionally navigates to the campaign URL
and runs `safe_apply`.  The loop is modelled as an event trace; `outcome
idx` abstracts whether campaign number `idx` ended SAVED (`true`) or
exhausted its retries (`false`) — `safe_apply` never raises, so the
outcome cannot influence control flow, which the trace makes explicit by
being parametric in `outcome`. -/

inductive Ev where
  | gotoBlank
  | pauseBlank
  | gotoTemplate
  | waitReady
  | gotoCampaign (cid : String)
  | applyCampaign (cid : String) (success : Bool)
deriving DecidableEq, Repr

def resetSeq : List Ev :=
  [Ev.gotoBlank, Ev.pauseBlank, Ev.gotoTemplate, Ev.waitReady]

def stepEvents (outcome : Nat → Bool) (idx : Nat) (cid : String) : List Ev :=
  (if idx % RESET_EVERY = 0 then resetSeq else []) ++
    [Ev.gotoCampaign cid, Ev.applyCampaign cid (outcome idx)]

def trace_from (outcome : Nat → Bool) (idx : Nat) : List String → List Ev
  | [] => []
  | cid :: rest => stepEvents outcome idx cid ++ trace_from outcome (idx + 1) rest

def run_worker_trace (outcome : Nat → Bool) (campaigns : List String) : List Ev :=
  trace_from outcome 1 campaigns

/-- Number of events one iteration emits; a function of the 1-based index
alone — neither the campaign id nor any outcome enters. -/
def blockLen (idx : Nat) : Nat :=
  (if idx % RESET_EVERY = 0 then 4 else 0) + 2

/-- Total length of the events emitted for `k` iterations starting at
index `idx`; again a function of indices alone. -/
def sumBlockLen (idx : Nat) : Nat → Nat
  | 0 => 0
  | k + 1 => blockLen idx + sumBlockLen (idx + 1) k

theorem stepEvents_length (outcome : Nat → Bool) (idx : Nat) (cid : String) :
    (stepEvents outcome idx cid).length = blockLen idx := by
  unfold stepEvents blockLen
  by_cases h : idx % RESET_EVERY = 0 <;> simp [h, resetSeq]

theorem stepEvents_getLast? (outcome : Nat → Bool) (idx : Nat) (cid : String) :
    (stepEvents outcome idx cid).getLast? =
      some (Ev.applyCampaign cid (outcome idx)) := by
  unfold stepEvents
  rw [List.getLast?_append_of_ne_nil _ (by simp)]
  rfl

theorem trace_from_decomp (outcome : Nat → Bool) :
    ∀ (l : List String) (idx k : Nat) (hk : k < l.length),
      ∃ pre post,
        trace_from outcome idx l =
          pre ++ stepEvents outcome (idx + k) (l.get ⟨k, hk⟩) ++ post ∧
        pre.length = sumBlockLen idx k ∧
        (pre = [] ∨ ∃ c b, pre.getLast? = some (Ev.applyCampaign c b))
  | [], idx, k, hk => by simp at hk
  | cid :: rest, idx, 0, hk => by
    refine ⟨[], trace_from outcome (idx + 1) rest, ?_, rfl, Or.inl rfl⟩
    simp [trace_from]
  | cid :: rest, idx, k + 1, hk => by
    obtain ⟨pre, post, h1, h2, h3⟩ :=
      trace_from_decomp outcome rest (idx + 1) k (by simpa using Nat.lt_of_succ_lt_succ hk)
    refine ⟨stepEvents outcome idx cid ++ pre, post, ?_, ?_, ?_⟩
    · simp only [trace_from, List.get_cons_succ]
      rw [h1]
      simp only [List.append_assoc]
      have : idx + 1 + k = idx + (k + 1) := by omega
      rw [this]
    · rw [List.length_append, stepEvents_length, h2]
      rfl
    · rcases h3 with rfl | ⟨c, b, hcb⟩
      · refine Or.inr ⟨cid, outcome idx, ?_⟩
        rw [List.append_nil]
        exact stepEvents_getLast? outcome idx cid
      · refine Or.inr ⟨c, b, ?_⟩
        rw [List.getLast?_append_of_ne_nil _ (by intro hc; rw [hc] at hcb; simp at hcb)]
        exact hcb

/-- Claim C6: in every worker's loop, the events for the `(k+1)`-th campaign
of its partition are: the four-step hard reset exactly when
`(k+1) % RESET_EVERY = 0` (so before the 2nd, 4th, 6th, … campaign and
never before an odd one), immediately followed by the navigation to that
campaign's URL and its `safe_apply`.  The position of the block
(`sumBlockLen 1 k`) depends only on the index `k`, not on the campaign ids
or on any `outcome`, so resets run unconditionally at interval boundaries
regardless of prior success or failure; and when no reset is due, the event
immediately preceding the navigation is the previous campaign's
`safe_apply` (or nothing, for the first campaign), never a reset step. -/
theorem run_worker_reset_cadence (outcome : Nat → Bool) (campaigns : List String)
    (k : Nat) (hk : k < campaigns.length) :
    ∃ pre post,
      run_worker_trace outcome campaigns =
        pre ++ ((if (k + 1) % RESET_EVERY = 0 then resetSeq else []) ++
          [Ev.gotoCampaign (campaigns.get ⟨k, hk⟩),
           Ev.applyCampaign (campaigns.get ⟨k, hk⟩) (outcome (k + 1))]) ++ post ∧
      pre.length = sumBlockLen 1 k ∧
      (pre = [] ∨ ∃ c b, pre.getLast? = some (Ev.applyCampaign c b)) := by
  obtain ⟨pre, post, h1, h2, h3⟩ := trace_from_decomp outcome campaigns 1 k hk
  refine ⟨pre, post, ?_, h2, h3⟩
  rw [run_worker_trace, h1]
  have : 1 + k = k + 1 := by omega
  rw [this]
  rfl

/-- Witness for `run_worker_reset_cadence` on a two-campaign partition: the
second campaign (`k = 1`, index 2, and `2 % RESET_EVERY = 0`) is preceded by
the reset block, which sits right after the first campaign's events. -/
theorem run_worker_reset_cadence_witness :
    ∃ pre post,
      run_worker_trace (fun _ => true) ["CA", "CB"] =
        pre ++ ((if (1 + 1) % RESET_EVERY = 0 then resetSeq else []) ++
          [Ev.gotoCampaign "CB", Ev.applyCampaign "CB" true]) ++ post ∧
      pre.length = sumBlockLen 1 1 ∧
      (pre = [] ∨ ∃ c b, pre.getLast? = some (Ev.applyCampaign c b)) := by
  have h := run_worker_reset_cadence (fun _ => true) ["CA", "CB"] 1 (by simp)
  simpa using h

/-! ### construct_campaign_url

The source parses the base URL (`urlparse`), parses its query string into a
dict of value lists (`parse_qs`, with CPython defaults: pairs split on `&`,
then at the first `=`; pairs with no `=` or an empty value are discarded
because `keep_blank_values=False`; the dict keeps first-occurrence key
order), overwrites `q["campaignId"] = [cid]`, re-encodes
(`urlencode(..., doseq=True)`) and reassembles (`urlunparse`, which appends
`?query` when the query is non-empty and `#fragment` when the fragment is
non-empty).

URLs are modelled at character level.  `urlparse`/`urlunparse` are modelled
by their observable effect here: the text before the first `?` (itself
taken before the first `#`) is carried verbatim, and the fragment after the
first `#` is carried verbatim.  Percent-encoding is not modelled (the
translation is the identity on percent-free URLs and ids). -/

def breakAtFirst (c : Char) : List Char → List Char × Option (List Char)
  | [] => ([], none)
  | x :: xs =>
    if x = c then ([], some xs)
    else
      let r := breakAtFirst c xs
      (x :: r.1, r.2)

def splitAmp : List Char → List (List Char)
  | [] => [[]]
  | x :: xs =>
    let r := splitAmp xs
    if x = '&' then [] :: r
    else
      match r with
      | [] => [[x]]
      | s :: ss => (x :: s) :: ss

/-- One `name=value` pair of `urllib.parse.parse_qsl` with default options,
minus percent-decoding: an empty pair, a pair without `=`, or a pair with an
empty value is skipped. -/
def parseSeg (seg : List Char) : Option (List Char × List Char) :=
  if seg = [] then none
  else
    match breakAtFirst '=' seg with
    | (_, none) => none
    | (_, some []) => none
    | (k, some v) => some (k, v)

def parse_qsl (query : List Char) : List (List Char × List Char) :=
  (splitAmp query).filterMap parseSeg

/-- One step of `parse_qs`'s dict building: append the value to an existing
key's list, else add the key at the end (CPython dicts keep insertion
order). -/
def insertPair (acc : List (List Char × List (List Char)))
    (kv : List Char × List Char) : List (List Char × List (List Char)) :=
  if acc.any (fun p => p.1 = kv.1) then
    acc.map (fun p => if p.1 = kv.1 then (p.1, p.2 ++ [kv.2]) else p)
  else acc ++ [(kv.1, [kv.2])]

def parse_qs (query : List Char) : List (List Char × List (List Char)) :=
  (parse_qsl query).foldl insertPair []

/-- `q[key] = vals` on a CPython dict: replace in place when present, else
append. -/
def dictAssign (d : List (List Char × List (List Char))) (key : List Char)
    (vals : List (List Char)) : List (List Char × List (List Char)) :=
  if d.any (fun p => p.1 = key) then
    d.map (fun p => if p.1 = key then (key, vals) else p)
  else d ++ [(key, vals)]

def joinAmp : List (List Char) → List Char
  | [] => []
  | [s] => s
  | s :: rest => s ++ '&' :: joinAmp rest

/-- `urlencode(d, doseq=True)` minus percent-encoding: one `key=value`
segment per value, joined by `&`. -/
def urlencode (d : List (List Char × List (List Char))) : List Char :=
  joinAmp ((d.map (fun p => p.2.map (fun v => p.1 ++ '=' :: v))).flatten)

def construct_campaign_url (base cid : String) : String :=
  let h := breakAtFirst '#' base.data
  let q := breakAtFirst '?' h.1
  let oldQuery := match q.2 with
    | some qs => qs
    | none => []
  let d2 := dictAssign (parse_qs oldQuery) "campaignId".data [cid.data]
  String.mk (q.1 ++ '?' :: urlencode d2 ++
    (match h.2 with
     | some f => if f = [] then [] else '#' :: f
     | none => []))

/-- Component accessors of the URL model, matching `urlparse`'s fragment and
query extraction. -/
def urlFragment (url : String) : Option (List Char) :=
  (breakAtFirst '#' url.data).2

def urlPreQuery (url : String) : List Char :=
  (breakAtFirst '?' (breakAtFirst '#' url.data).1).1

def urlQueryChars (url : String) : List Char :=
  match (breakAtFirst '?' (breakAtFirst '#' url.data).1).2 with
  | some qs => qs
  | none => []

def lookupKey (d : List (List Char × List (List Char))) (k : List Char) :
    Option (List (List Char)) :=
  (d.find? (fun p => p.1 = k)).map Prod.snd

example :
    construct_campaign_url "https://x/y?campaignId=OLD&z=1" "NEW" =
      "https://x/y?campaignId=NEW&z=1" := by decide

example :
    construct_campaign_url "https://x/y?campaignId=OLD&z=" "NEW" =
      "https://x/y?campaignId=NEW" := by decide

example :
    construct_campaign_url "https://x/y" "C7" = "https://x/y?campaignId=C7" := by
  decide

example :
    construct_campaign_url "https://x/y?a=1&a=2#frag" "N" =
      "https://x/y?a=1&a=2&campaignId=N#frag" := by decide

theorem breakAtFirst_not_mem_fst (c : Char) :
    ∀ l : List Char, c ∉ (breakAtFirst c l).1
  | [] => by simp [breakAtFirst]
  | x :: xs => by
    simp only [breakAtFirst]
    by_cases hx : x = c
    · simp [hx]
    · simp only [if_neg hx]
      intro hmem
      rcases List.mem_cons.mp hmem with h1 | h1
      · exact hx h1.symm
      · exact breakAtFirst_not_mem_fst c xs h1

theorem breakAtFirst_eq_some (c : Char) :
    ∀ (l a b : List Char), breakAtFirst c l = (a, some b) → l = a ++ c :: b
  | [], a, b, h => by simp [breakAtFirst] at h
  | x :: xs, a, b, h => by
    simp only [breakAtFirst] at h
    by_cases hx : x = c
    · rw [if_pos hx] at h
      injection h with h1 h2
      injection h2 with h2
      subst h1
      subst h2
      subst hx
      rfl
    · rw [if_neg hx] at h
      injection h with h1 h2
      cases hr : breakAtFirst c xs with
    | mk a2 r2 =>
      rw [hr] at h1 h2
      dsimp at h1 h2
      rw [h2] at hr
      have hxs := breakAtFirst_eq_some c xs a2 b hr
      rw [← h1, hxs]
      rfl

theorem breakAtFirst_eq_none (c : Char) :
    ∀ (l a : List Char), breakAtFirst c l = (a, none) → l = a
  | [], a, h => by
    simp only [breakAtFirst] at h
    exact congrArg Prod.fst h
  | x :: xs, a, h => by
    simp only [breakAtFirst] at h
    by_cases hx : x = c
    · rw [if_pos hx] at h
      have h2 := congrArg Prod.snd h
      simp at h2
    · rw [if_neg hx] at h
      have h1 : x :: (breakAtFirst c xs).1 = a := congrArg Prod.fst h
      have h2 : (breakAtFirst c xs).2 = none := congrArg Prod.snd h
      have hpair : breakAtFirst c xs = ((breakAtFirst c xs).1, none) := by
        rw [← h2]
      have hxs := breakAtFirst_eq_none c xs (breakAtFirst c xs).1 hpair
      rw [← h1, ← hxs]

theorem breakAtFirst_append (c : Char) :
    ∀ (a b : List Char), c ∉ a → breakAtFirst c (a ++ c :: b) = (a, some b)
  | [], b, _ => by simp [breakAtFirst]
  | x :: xs, b, h => by
    have hx : x ≠ c := fun hc => h (by simp [hc])
    have hxs : c ∉ xs := fun hc => h (by simp [hc])
    simp only [List.cons_append, breakAtFirst, if_neg hx]
    rw [show xs.append (c :: b) = xs ++ c :: b from rfl,
      breakAtFirst_append c xs b hxs]

theorem breakAtFirst_not_mem (c : Char) :
    ∀ l : List Char, c ∉ l → breakAtFirst c l = (l, none)
  | [], _ => rfl
  | x :: xs, h => by
    have hx : x ≠ c := fun hc => h (by simp [hc])
    have hxs : c ∉ xs := fun hc => h (by simp [hc])
    simp only [breakAtFirst, if_neg hx, breakAtFirst_not_mem c xs hxs]

theorem splitAmp_ne_nil : ∀ l : List Char, splitAmp l ≠ []
  | [] => by simp [splitAmp]
  | x :: xs => by
    simp only [splitAmp]
    by_cases hx : x = '&'
    · simp [hx]
    · simp only [if_neg hx]
      cases hr : splitAmp xs with
      | nil => simp
      | cons s ss => simp

theorem mem_splitAmp_no_amp :
    ∀ (l : List Char) (s : List Char), s ∈ splitAmp l → '&' ∉ s
  | [], s, hs => by
    simp [splitAmp] at hs
    simp [hs]
  | x :: xs, s, hs => by
    simp only [splitAmp] at hs
    by_cases hx : x = '&'
    · rw [if_pos hx] at hs
      rcases List.mem_cons.mp hs with rfl | h
      · simp
      · exact mem_splitAmp_no_amp xs s h
    · rw [if_neg hx] at hs
      cases hr : splitAmp xs with
    | nil => exact absurd hr (splitAmp_ne_nil xs)
    | cons t ts =>
      rw [hr] at hs
      rcases List.mem_cons.mp hs with rfl | h
      · intro hmem
        rcases List.mem_cons.mp hmem with h1 | h1
        · exact hx h1.symm
        · exact mem_splitAmp_no_amp xs t (by rw [hr]; exact List.mem_cons_self ..) h1
      · exact mem_splitAmp_no_amp xs s (by rw [hr]; exact List.mem_cons_of_mem _ h)

theorem splitAmp_no_amp (l : List Char) (h : '&' ∉ l) : splitAmp l = [l] := by
  induction l with
  | nil => rfl
  | cons x xs ih =>
    have hx : x ≠ '&' := fun hc => h (by simp [hc])
    have hxs : '&' ∉ xs := fun hc => h (by simp [hc])
    simp only [splitAmp, if_neg hx, ih hxs]

theorem splitAmp_append_amp (t : List Char) :
    ∀ s : List Char, '&' ∉ s → splitAmp (s ++ '&' :: t) = s :: splitAmp t
  | [], _ => by simp [splitAmp]
  | x :: xs, h => by
    have hx : x ≠ '&' := fun hc => h (by simp [hc])
    have hxs : '&' ∉ xs := fun hc => h (by simp [hc])
    simp only [List.cons_append, splitAmp, if_neg hx]
    rw [show xs.append ('&' :: t) = xs ++ '&' :: t from rfl,
      splitAmp_append_amp t xs hxs]

theorem map_eq_self_of (l : List α) (f : α → α) (h : ∀ x ∈ l, f x = x) :
    l.map f = l := by
  induction l with
  | nil => rfl
  | cons x xs ih =>
    rw [List.map_cons, h x (by simp), ih fun y hy => h y (by simp [hy])]

theorem filterMap_eq_map_of (g : α → Option β) (f : α → β) (l : List α)
    (h : ∀ x ∈ l, g x = some (f x)) : l.filterMap g = l.map f := by
  induction l with
  | nil => rfl
  | cons x xs ih =>
    rw [List.filterMap_cons, h x (by simp), List.map_cons,
      ih fun y hy => h y (by simp [hy])]

/-- The `key=value` segments `urlencode` emits for a dict. -/
def qsegments (d : List (List Char × List (List Char))) : List (List Char) :=
  (d.map (fun p => p.2.map (fun v => p.1 ++ '=' :: v))).flatten

/-- The flat pair sequence those segments parse back to. -/
def qpairs (d : List (List Char × List (List Char))) :
    List (List Char × List Char) :=
  (d.map (fun p => p.2.map (fun v => (p.1, v)))).flatten

/-- Soundness invariant of a query dict relative to an alphabet `A`: keys
are distinct, `&`-free and `=`-free; value lists are non-empty; values are
non-empty and `&`-free; all characters come from `A`. -/
def DictInv (A : List Char) (d : List (List Char × List (List Char))) : Prop :=
  (d.map Prod.fst).Nodup ∧
  ∀ p ∈ d, ('&' ∉ p.1) ∧ ('=' ∉ p.1) ∧ (∀ x ∈ p.1, x ∈ A) ∧ p.2 ≠ [] ∧
    ∀ v ∈ p.2, ('&' ∉ v) ∧ v ≠ [] ∧ (∀ x ∈ v, x ∈ A)

theorem splitAmp_joinAmp :
    ∀ segs : List (List Char), segs ≠ [] → (∀ s ∈ segs, '&' ∉ s) →
      splitAmp (joinAmp segs) = segs
  | [], h, _ => absurd rfl h
  | [s], _, h => by
    simp only [joinAmp]
    exact splitAmp_no_amp s (h s (by simp))
  | s :: s2 :: rest, _, h => by
    simp only [joinAmp]
    rw [splitAmp_append_amp _ s (h s (by simp)),
      splitAmp_joinAmp (s2 :: rest) (by simp) fun t ht => h t (by simp [ht])]

theorem parseSeg_encode (k v : List Char) (hk : '=' ∉ k) (hv : v ≠ []) :
    parseSeg (k ++ '=' :: v) = some (k, v) := by
  unfold parseSeg
  rw [if_neg (by simp), breakAtFirst_append '=' k v hk]
  cases v with
  | nil => exact absurd rfl hv
  | cons v0 vs => rfl

theorem mem_qsegments (d : List (List Char × List (List Char)))
    (s : List Char) (hs : s ∈ qsegments d) :
    ∃ p ∈ d, ∃ v ∈ p.2, s = p.1 ++ '=' :: v := by
  unfold qsegments at hs
  rw [List.mem_flatten] at hs
  obtain ⟨seglist, hsl, hmem⟩ := hs
  rw [List.mem_map] at hsl
  obtain ⟨p, hp, rfl⟩ := hsl
  rw [List.mem_map] at hmem
  obtain ⟨v, hv, rfl⟩ := hmem
  exact ⟨p, hp, v, hv, rfl⟩

theorem qsegments_no_amp (A : List Char) (d : List (List Char × List (List Char)))
    (hinv : DictInv A d) : ∀ s ∈ qsegments d, '&' ∉ s := by
  intro s hs
  obtain ⟨p, hp, v, hv, rfl⟩ := mem_qsegments d s hs
  obtain ⟨hk, _, _, _, hvals⟩ := hinv.2 p hp
  obtain ⟨hvamp, _, _⟩ := hvals v hv
  intro hmem
  rcases List.mem_append.mp hmem with h | h
  · exact hk h
  · rcases List.mem_cons.mp h with h1 | h1
    · exact absurd h1 (by decide)
    · exact hvamp h1

theorem qsegments_ne_nil (A : List Char) (p0 : List Char × List (List Char))
    (d : List (List Char × List (List Char)))
    (hinv : DictInv A (p0 :: d)) : qsegments (p0 :: d) ≠ [] := by
  obtain ⟨_, _, _, hne, _⟩ := hinv.2 p0 (by simp)
  cases hv : p0.2 with
  | nil => exact absurd hv hne
  | cons v vs =>
    unfold qsegments
    simp [hv]

theorem parse_qsl_urlencode (A : List Char) (d : List (List Char × List (List Char)))
    (hinv : DictInv A d) : parse_qsl (urlencode d) = qpairs d := by
  cases d with
  | nil => rfl
  | cons p0 d' =>
    have hju : urlencode (p0 :: d') = joinAmp (qsegments (p0 :: d')) := rfl
    unfold parse_qsl
    rw [hju, splitAmp_joinAmp _ (qsegments_ne_nil A p0 d' hinv)
      (qsegments_no_amp A _ hinv)]
    unfold qsegments qpairs
    rw [List.filterMap_flatten, List.map_map]
    congr 1
    apply List.map_congr_left
    intro p hp
    obtain ⟨_, hkeq, _, _, hvals⟩ := hinv.2 p hp
    show (p.2.map (fun v => p.1 ++ '=' :: v)).filterMap parseSeg =
      p.2.map (fun v => (p.1, v))
    rw [List.filterMap_map]
    exact filterMap_eq_map_of _ _ p.2 fun v hv =>
      parseSeg_encode p.1 v hkeq (hvals v hv).2.1

theorem insertPair_not_mem (acc : List (List Char × List (List Char)))
    (k v : List Char) (h : ∀ p ∈ acc, p.1 ≠ k) :
    insertPair acc (k, v) = acc ++ [(k, [v])] := by
  unfold insertPair
  rw [if_neg]
  simp only [List.any_eq_true, decide_eq_true_eq, not_exists]
  rintro p ⟨hp, hpk⟩
  exact h p hp hpk

theorem foldl_insertPair_acc_key (k : List Char) :
    ∀ (vs : List (List Char)) (acc : List (List Char × List (List Char)))
      (u : List (List Char)), (∀ p ∈ acc, p.1 ≠ k) →
      List.foldl insertPair (acc ++ [(k, u)]) (vs.map (fun v => (k, v))) =
        acc ++ [(k, u ++ vs)]
  | [], acc, u, _ => by simp
  | v :: vs, acc, u, h => by
    simp only [List.map_cons, List.foldl_cons]
    have hstep : insertPair (acc ++ [(k, u)]) (k, v) = acc ++ [(k, u ++ [v])] := by
      unfold insertPair
      rw [if_pos (by simp [List.any_append])]
      rw [List.map_append]
      congr 1
      · exact map_eq_self_of acc _ fun p hp => by
          simp only [if_neg (h p hp)]
      · simp
    rw [hstep, foldl_insertPair_acc_key k vs acc (u ++ [v]) h]
    simp

theorem foldl_insertPair_group :
    ∀ (d acc : List (List Char × List (List Char))),
      (d.map Prod.fst).Nodup → (∀ p ∈ d, p.2 ≠ []) →
      (∀ p ∈ d, ∀ pa ∈ acc, pa.1 ≠ p.1) →
      List.foldl insertPair acc (qpairs d) = acc ++ d
  | [], acc, _, _, _ => by simp [qpairs]
  | (k, vs) :: d', acc, hnd, hne, hdisj => by
    have hnd2 : (k :: d'.map Prod.fst).Nodup := by
      simpa only [List.map_cons] using hnd
    have hk_notin : ∀ p ∈ d', p.1 ≠ k := by
      intro p hp hpk
      exact (List.nodup_cons.mp hnd2).1 (hpk ▸ List.mem_map_of_mem Prod.fst hp)
    cases hv : vs with
    | nil => exact absurd hv (hne (k, vs) (by simp))
    | cons v0 vs' =>
      subst hv
      have hq : qpairs ((k, v0 :: vs') :: d') =
          ((v0 :: vs').map (fun v => (k, v))) ++ qpairs d' := by
        unfold qpairs
        simp
      rw [hq, List.foldl_append]
      have hacck : ∀ p ∈ acc, p.1 ≠ k :=
        fun p hp => hdisj (k, v0 :: vs') (by simp) p hp
      have hin : List.foldl insertPair acc ((v0 :: vs').map (fun v => (k, v))) =
          acc ++ [(k, [v0] ++ vs')] := by
        simp only [List.map_cons, List.foldl_cons]
        rw [insertPair_not_mem acc k v0 hacck]
        exact foldl_insertPair_acc_key k vs' acc [v0] hacck
      rw [hin, foldl_insertPair_group d' (acc ++ [(k, [v0] ++ vs')])
        ((List.nodup_cons.mp hnd2).2)
        (fun p hp => hne p (by simp [hp]))
        (by
          intro p hp pa hpa
          rcases List.mem_append.mp hpa with h1 | h1
          · exact hdisj p (by simp [hp]) pa h1
          · rcases List.mem_singleton.mp h1 with rfl
            exact fun hc => hk_notin p hp hc.symm)]
      simp

theorem parse_qs_urlencode (A : List Char) (d : List (List Char × List (List Char)))
    (hinv : DictInv A d) : parse_qs (urlencode d) = d := by
  unfold parse_qs
  rw [parse_qsl_urlencode A d hinv]
  have h := foldl_insertPair_group d [] hinv.1
    (fun p hp => (hinv.2 p hp).2.2.2.1) (by simp)
  simpa using h

/-- Per-pair soundness of `parse_qsl` output relative to its query text. -/
def PairInv (A : List Char) (kv : List Char × List Char) : Prop :=
  ('&' ∉ kv.1) ∧ ('=' ∉ kv.1) ∧ (∀ x ∈ kv.1, x ∈ A) ∧
  ('&' ∉ kv.2) ∧ kv.2 ≠ [] ∧ (∀ x ∈ kv.2, x ∈ A)

theorem mem_splitAmp_subset :
    ∀ (l s : List Char), s ∈ splitAmp l → ∀ x ∈ s, x ∈ l
  | [], s, hs => by
    simp [splitAmp] at hs
    simp [hs]
  | y :: ys, s, hs => by
    simp only [splitAmp] at hs
    by_cases hy : y = '&'
    · rw [if_pos hy] at hs
      rcases List.mem_cons.mp hs with rfl | h
      · simp
      · exact fun x hx => List.mem_cons_of_mem y (mem_splitAmp_subset ys s h x hx)
    · rw [if_neg hy] at hs
      cases hr : splitAmp ys with
      | nil => exact absurd hr (splitAmp_ne_nil ys)
      | cons t ts =>
        rw [hr] at hs
        rcases List.mem_cons.mp hs with rfl | h
        · intro x hx
          rcases List.mem_cons.mp hx with rfl | h1
          · simp
          · exact List.mem_cons_of_mem y
              (mem_splitAmp_subset ys t (by rw [hr]; exact List.mem_cons_self ..) x h1)
        · exact fun x hx => List.mem_cons_of_mem y
            (mem_splitAmp_subset ys s (by rw [hr]; exact List.mem_cons_of_mem t h) x hx)

theorem parseSeg_inv (seg : List Char) (kv : List Char × List Char)
    (hamp : '&' ∉ seg) (h : parseSeg seg = some kv) :
    ('&' ∉ kv.1) ∧ ('=' ∉ kv.1) ∧ (∀ x ∈ kv.1, x ∈ seg) ∧
    ('&' ∉ kv.2) ∧ kv.2 ≠ [] ∧ (∀ x ∈ kv.2, x ∈ seg) := by
  unfold parseSeg at h
  by_cases hnil : seg = []
  · rw [if_pos hnil] at h
    simp at h
  rw [if_neg hnil] at h
  cases hb : breakAtFirst '=' seg with
  | mk a r =>
    rw [hb] at h
    cases r with
    | none => simp at h
    | some v =>
      cases v with
      | nil => simp at h
      | cons v0 vs =>
        have hkv : kv = (a, v0 :: vs) := by
          injection h with h
          exact h.symm
        subst hkv
        have hseg : seg = a ++ '=' :: v0 :: vs := breakAtFirst_eq_some '=' seg a _ hb
        have hka : '=' ∉ a := by
          have := breakAtFirst_not_mem_fst '=' seg
          rw [hb] at this
          exact this
        refine ⟨?_, hka, ?_, ?_, by simp, ?_⟩
        · intro hx
          exact hamp (by rw [hseg]; exact List.mem_append_left _ hx)
        · intro x hx
          rw [hseg]
          exact List.mem_append_left _ hx
        · intro hx
          exact hamp (by
            rw [hseg]
            exact List.mem_append_right _ (List.mem_cons_of_mem _ hx))
        · intro x hx
          rw [hseg]
          exact List.mem_append_right _ (List.mem_cons_of_mem _ hx)

theorem parse_qsl_pairInv (q : List Char) (kv : List Char × List Char)
    (h : kv ∈ parse_qsl q) : PairInv q kv := by
  unfold parse_qsl at h
  rw [List.mem_filterMap] at h
  obtain ⟨seg, hseg, hps⟩ := h
  have hamp := mem_splitAmp_no_amp q seg hseg
  have hsub := mem_splitAmp_subset q seg hseg
  obtain ⟨h1, h2, h3, h4, h5, h6⟩ := parseSeg_inv seg kv hamp hps
  exact ⟨h1, h2, fun x hx => hsub x (h3 x hx), h4, h5, fun x hx => hsub x (h6 x hx)⟩

theorem insertPair_inv (A : List Char) (acc : List (List Char × List (List Char)))
    (kv : List Char × List Char) (hacc : DictInv A acc) (hkv : PairInv A kv) :
    DictInv A (insertPair acc kv) := by
  unfold insertPair
  by_cases hany : acc.any (fun p => p.1 = kv.1) = true
  · rw [if_pos hany]
    constructor
    · have hkeys : (acc.map (fun p => if p.1 = kv.1 then (p.1, p.2 ++ [kv.2]) else p)).map
          Prod.fst = acc.map Prod.fst := by
        rw [List.map_map]
        apply List.map_congr_left
        intro p _
        by_cases h : p.1 = kv.1 <;> simp [h]
      rw [hkeys]
      exact hacc.1
    · intro p hp
      rw [List.mem_map] at hp
      obtain ⟨p0, hp0, heq⟩ := hp
      obtain ⟨h1, h2, h3, h4, h5⟩ := hacc.2 p0 hp0
      by_cases h : p0.1 = kv.1
      · rw [if_pos h] at heq
        rw [← heq]
        refine ⟨h1, h2, h3, by simp, ?_⟩
        intro v hv
        rcases List.mem_append.mp hv with hv1 | hv1
        · exact h5 v hv1
        · rcases List.mem_singleton.mp hv1 with rfl
          exact ⟨hkv.2.2.2.1, hkv.2.2.2.2.1, hkv.2.2.2.2.2⟩
      · rw [if_neg h] at heq
        rw [← heq]
        exact ⟨h1, h2, h3, h4, h5⟩
  · rw [if_neg hany]
    have hnotin : ∀ p ∈ acc, ¬(p.1 = kv.1) := by
      intro p hp
      have h2 : ¬∃ p ∈ acc, p.1 = kv.1 := by
        simpa [List.any_eq_true] using hany
      exact fun hc => h2 ⟨p, hp, hc⟩
    constructor
    · rw [List.map_append]
      refine List.Nodup.append hacc.1 (by simp) ?_
      intro a ha hb
      rcases List.mem_map.mp ha with ⟨p, hp, rfl⟩
      simp only [List.map_cons, List.map_nil, List.mem_singleton] at hb
      exact hnotin p hp hb
    · intro p hp
      rcases List.mem_append.mp hp with hp1 | hp1
      · exact hacc.2 p hp1
      · rcases List.mem_singleton.mp hp1 with rfl
        refine ⟨hkv.1, hkv.2.1, hkv.2.2.1, by simp, ?_⟩
        intro v hv
        rcases List.mem_singleton.mp hv with rfl
        exact ⟨hkv.2.2.2.1, hkv.2.2.2.2.1, hkv.2.2.2.2.2⟩

theorem foldl_insertPair_inv (A : List Char) :
    ∀ (pairs : List (List Char × List Char))
      (acc : List (List Char × List (List Char))),
      DictInv A acc → (∀ kv ∈ pairs, PairInv A kv) →
      DictInv A (List.foldl insertPair acc pairs)
  | [], acc, hacc, _ => hacc
  | kv :: pairs, acc, hacc, hp => by
    simp only [List.foldl_cons]
    exact foldl_insertPair_inv A pairs _
      (insertPair_inv A acc kv hacc (hp kv (by simp)))
      (fun kv2 h2 => hp kv2 (by simp [h2]))

theorem parse_qs_inv (q : List Char) : DictInv q (parse_qs q) :=
  foldl_insertPair_inv q (parse_qsl q) [] ⟨by simp, by simp⟩
    (parse_qsl_pairInv q)

theorem DictInv_mono (A B : List Char) (hAB : ∀ x ∈ A, x ∈ B)
    (d : List (List Char × List (List Char))) (h : DictInv A d) : DictInv B d := by
  refine ⟨h.1, ?_⟩
  intro p hp
  obtain ⟨h1, h2, h3, h4, h5⟩ := h.2 p hp
  exact ⟨h1, h2, fun x hx => hAB x (h3 x hx), h4,
    fun v hv => ⟨(h5 v hv).1, (h5 v hv).2.1, fun x hx => hAB x ((h5 v hv).2.2 x hx)⟩⟩

theorem dictAssign_inv (A : List Char) (d : List (List Char × List (List Char)))
    (key : List Char) (vals : List (List Char)) (hd : DictInv A d)
    (hk1 : '&' ∉ key) (hk2 : '=' ∉ key) (hk3 : ∀ x ∈ key, x ∈ A)
    (hv0 : vals ≠ [])
    (hv : ∀ v ∈ vals, ('&' ∉ v) ∧ v ≠ [] ∧ (∀ x ∈ v, x ∈ A)) :
    DictInv A (dictAssign d key vals) := by
  unfold dictAssign
  by_cases hany : d.any (fun p => p.1 = key) = true
  · rw [if_pos hany]
    constructor
    · have hkeys : (d.map (fun p => if p.1 = key then (key, vals) else p)).map
          Prod.fst = d.map Prod.fst := by
        rw [List.map_map]
        apply List.map_congr_left
        intro p _
        by_cases h : p.1 = key <;> simp [h]
      rw [hkeys]
      exact hd.1
    · intro p hp
      rw [List.mem_map] at hp
      obtain ⟨p0, hp0, heq⟩ := hp
      by_cases h : p0.1 = key
      · rw [if_pos h] at heq
        rw [← heq]
        exact ⟨hk1, hk2, hk3, hv0, hv⟩
      · rw [if_neg h] at heq
        rw [← heq]
        exact hd.2 p0 hp0
  · rw [if_neg hany]
    have hnotin : ∀ p ∈ d, ¬(p.1 = key) := by
      intro p hp
      have h2 : ¬∃ p ∈ d, p.1 = key := by
        simpa [List.any_eq_true] using hany
      exact fun hc => h2 ⟨p, hp, hc⟩
    constructor
    · rw [List.map_append]
      refine List.Nodup.append hd.1 (by simp) ?_
      intro a ha hb
      rcases List.mem_map.mp ha with ⟨p, hp, rfl⟩
      simp only [List.map_cons, List.map_nil, List.mem_singleton] at hb
      exact hnotin p hp hb
    · intro p hp
      rcases List.mem_append.mp hp with hp1 | hp1
      · exact hd.2 p hp1
      · rcases List.mem_singleton.mp hp1 with rfl
        exact ⟨hk1, hk2, hk3, hv0, hv⟩

theorem find?_append_of_none (p : α → Bool) :
    ∀ l₁ l₂ : List α, (∀ x ∈ l₁, p x = false) → (l₁ ++ l₂).find? p = l₂.find? p
  | [], _, _ => rfl
  | x :: xs, l₂, h => by
    have hx : ¬p x = true := by
      rw [h x (by simp)]
      simp
    rw [List.cons_append, List.find?_cons_of_neg _ hx]
    exact find?_append_of_none p xs l₂ fun y hy => h y (by simp [hy])

theorem find?_append_of_some (p : α → Bool) :
    ∀ (l₁ l₂ : List α) (a : α), l₁.find? p = some a →
      (l₁ ++ l₂).find? p = some a
  | [], _, _, h => by simp at h
  | x :: xs, l₂, a, h => by
    by_cases hx : p x = true
    · rw [List.find?_cons_of_pos _ hx] at h
      rw [List.cons_append, List.find?_cons_of_pos _ hx]
      exact h
    · rw [List.find?_cons_of_neg _ hx] at h
      rw [List.cons_append, List.find?_cons_of_neg _ hx]
      exact find?_append_of_some p xs l₂ a h

theorem find?_update_self (key : List Char) (vals : List (List Char)) :
    ∀ d : List (List Char × List (List Char)), (∃ p ∈ d, p.1 = key) →
      (d.map (fun p => if p.1 = key then (key, vals) else p)).find?
        (fun p => p.1 = key) = some (key, vals)
  | [], hex => by simp at hex
  | p0 :: d', hex => by
    by_cases hp : p0.1 = key
    · simp only [List.map_cons, if_pos hp]
      rw [List.find?_cons_of_pos _ (by simp)]
    · simp only [List.map_cons, if_neg hp]
      rw [List.find?_cons_of_neg _ (by simpa using hp)]
      apply find?_update_self key vals d'
      rcases hex with ⟨p, hpmem, hpk⟩
      rcases List.mem_cons.mp hpmem with rfl | hm
      · exact absurd hpk hp
      · exact ⟨p, hm, hpk⟩

theorem find?_update_other (key : List Char) (vals : List (List Char))
    (k2 : List Char) (hk : k2 ≠ key) :
    ∀ d : List (List Char × List (List Char)),
      (d.map (fun p => if p.1 = key then (key, vals) else p)).find?
        (fun p => p.1 = k2) = d.find? (fun p => p.1 = k2)
  | [] => rfl
  | p0 :: d' => by
    by_cases hp : p0.1 = key
    · simp only [List.map_cons, if_pos hp]
      rw [List.find?_cons_of_neg _ (by
          simp only [decide_eq_true_eq]
          exact fun hc => hk hc.symm),
        List.find?_cons_of_neg _ (by
          simp only [decide_eq_true_eq]
          rw [hp]
          exact fun hc => hk hc.symm)]
      exact find?_update_other key vals k2 hk d'
    · simp only [List.map_cons, if_neg hp]
      by_cases hp2 : p0.1 = k2
      · rw [List.find?_cons_of_pos _ (by simpa using hp2),
          List.find?_cons_of_pos _ (by simpa using hp2)]
      · rw [List.find?_cons_of_neg _ (by simpa using hp2),
          List.find?_cons_of_neg _ (by simpa using hp2)]
        exact find?_update_other key vals k2 hk d'

theorem lookupKey_dictAssign_self (d : List (List Char × List (List Char)))
    (key : List Char) (vals : List (List Char)) :
    lookupKey (dictAssign d key vals) key = some vals := by
  unfold dictAssign lookupKey
  by_cases hany : d.any (fun p => p.1 = key) = true
  · rw [if_pos hany,
      find?_update_self key vals d (by simpa [List.any_eq_true] using hany)]
    rfl
  · rw [if_neg hany,
      find?_append_of_none _ d _ (by
        intro x hx
        have h2 : ¬∃ p ∈ d, p.1 = key := by simpa [List.any_eq_true] using hany
        simp only [decide_eq_false_iff_not]
        exact fun hc => h2 ⟨x, hx, hc⟩),
      List.find?_cons_of_pos _ (by simp)]
    rfl

theorem lookupKey_dictAssign_other (d : List (List Char × List (List Char)))
    (key : List Char) (vals : List (List Char)) (k2 : List Char) (hk : k2 ≠ key) :
    lookupKey (dictAssign d key vals) k2 = lookupKey d k2 := by
  unfold dictAssign lookupKey
  by_cases hany : d.any (fun p => p.1 = key) = true
  · rw [if_pos hany, find?_update_other key vals k2 hk d]
  · rw [if_neg hany]
    cases hf : d.find? (fun p => p.1 = k2) with
    | some a => rw [find?_append_of_some _ d _ a hf]
    | none =>
      rw [find?_append_of_none _ d _ (by
          intro x hx
          have := List.find?_eq_none.mp hf x hx
          simpa using this),
        List.find?_cons_of_neg _ (by
          simp only [decide_eq_true_eq]
          exact fun hc => hk hc.symm)]
      rfl

theorem mem_joinAmp :
    ∀ (segs : List (List Char)) (x : Char), x ∈ joinAmp segs →
      x = '&' ∨ ∃ s ∈ segs, x ∈ s
  | [], x, h => by simp [joinAmp] at h
  | [s], x, h => by
    simp only [joinAmp] at h
    exact Or.inr ⟨s, by simp, h⟩
  | s :: s2 :: rest, x, h => by
    simp only [joinAmp] at h
    rcases List.mem_append.mp h with h1 | h1
    · exact Or.inr ⟨s, by simp, h1⟩
    · rcases List.mem_cons.mp h1 with rfl | h2
      · exact Or.inl rfl
      · rcases mem_joinAmp (s2 :: rest) x h2 with h3 | ⟨t, ht, hxt⟩
        · exact Or.inl h3
        · exact Or.inr ⟨t, List.mem_cons_of_mem s ht, hxt⟩

theorem mem_urlencode (A : List Char) (d : List (List Char × List (List Char)))
    (hinv : DictInv A d) (x : Char) (hx : x ∈ urlencode d) :
    x = '&' ∨ x = '=' ∨ x ∈ A := by
  have hju : urlencode d = joinAmp (qsegments d) := rfl
  rw [hju] at hx
  rcases mem_joinAmp (qsegments d) x hx with h | ⟨s, hs, hxs⟩
  · exact Or.inl h
  · obtain ⟨p, hp, v, hv, rfl⟩ := mem_qsegments d s hs
    obtain ⟨_, _, hkA, _, hvals⟩ := hinv.2 p hp
    rcases List.mem_append.mp hxs with h1 | h1
    · exact Or.inr (Or.inr (hkA x h1))
    · rcases List.mem_cons.mp h1 with rfl | h2
      · exact Or.inr (Or.inl rfl)
      · exact Or.inr (Or.inr ((hvals v hv).2.2 x h2))

theorem breakAtFirst_fst_subset (c : Char) (l : List Char) :
    ∀ x ∈ (breakAtFirst c l).1, x ∈ l := by
  intro x hx
  cases hr : (breakAtFirst c l).2 with
  | none =>
    have heq := breakAtFirst_eq_none c l (breakAtFirst c l).1 (by rw [← hr])
    rw [heq]
    exact hx
  | some b =>
    have heq := breakAtFirst_eq_some c l (breakAtFirst c l).1 b (by rw [← hr])
    rw [heq]
    exact List.mem_append_left _ hx

theorem breakAtFirst_snd_subset (c : Char) (l b : List Char)
    (h : (breakAtFirst c l).2 = some b) : ∀ x ∈ b, x ∈ l := by
  have heq := breakAtFirst_eq_some c l (breakAtFirst c l).1 b (by rw [← h])
  intro x hx
  rw [heq]
  exact List.mem_append_right _ (List.mem_cons_of_mem _ hx)

theorem urlQueryChars_no_hash (base : String) : '#' ∉ urlQueryChars base := by
  unfold urlQueryChars
  cases hq2 : (breakAtFirst '?' (breakAtFirst '#' base.data).1).2 with
  | none => simp
  | some qs =>
    intro hx
    exact breakAtFirst_not_mem_fst '#' base.data
      (breakAtFirst_snd_subset '?' _ qs hq2 '#' hx)

theorem construct_split (base cid : String)
    (hnophash : '#' ∉ urlencode (dictAssign (parse_qs (urlQueryChars base))
      "campaignId".data [cid.data])) :
    breakAtFirst '#' (construct_campaign_url base cid).data =
      ((breakAtFirst '?' (breakAtFirst '#' base.data).1).1 ++ '?' ::
          urlencode (dictAssign (parse_qs (urlQueryChars base))
            "campaignId".data [cid.data]),
        match (breakAtFirst '#' base.data).2 with
        | some f => if f = [] then none else some f
        | none => none) := by
  have hpre_nohash : '#' ∉ (breakAtFirst '?' (breakAtFirst '#' base.data).1).1 :=
    fun hx => breakAtFirst_not_mem_fst '#' base.data
      (breakAtFirst_fst_subset '?' _ '#' hx)
  have hout : (construct_campaign_url base cid).data =
      (breakAtFirst '?' (breakAtFirst '#' base.data).1).1 ++ '?' ::
        urlencode (dictAssign (parse_qs (urlQueryChars base))
          "campaignId".data [cid.data]) ++
        (match (breakAtFirst '#' base.data).2 with
         | some f => if f = [] then [] else '#' :: f
         | none => []) := rfl
  rw [hout]
  have hnomem : '#' ∉ (breakAtFirst '?' (breakAtFirst '#' base.data).1).1 ++ '?' ::
      urlencode (dictAssign (parse_qs (urlQueryChars base))
        "campaignId".data [cid.data]) := by
    intro hx
    rcases List.mem_append.mp hx with h | h
    · exact hpre_nohash h
    · rcases List.mem_cons.mp h with h1 | h1
      · exact absurd h1 (by decide)
      · exact hnophash h1
  cases hfrag : (breakAtFirst '#' base.data).2 with
  | none =>
    rw [List.append_nil]
    exact breakAtFirst_not_mem '#' _ hnomem
  | some f =>
    by_cases hfe : f = []
    · subst hfe
      dsimp only
      rw [if_pos rfl, if_pos rfl, List.append_nil]
      exact breakAtFirst_not_mem '#' _ hnomem
    · dsimp only
      rw [if_neg hfe, if_neg hfe]
      exact breakAtFirst_append '#' _ f hnomem

theorem construct_split_q (base cid : String)
    (hnophash : '#' ∉ urlencode (dictAssign (parse_qs (urlQueryChars base))
      "campaignId".data [cid.data])) :
    breakAtFirst '?' (breakAtFirst '#' (construct_campaign_url base cid).data).1 =
      ((breakAtFirst '?' (breakAtFirst '#' base.data).1).1,
        some (urlencode (dictAssign (parse_qs (urlQueryChars base))
          "campaignId".data [cid.data]))) := by
  rw [construct_split base cid hnophash]
  exact breakAtFirst_append '?' _ _ (breakAtFirst_not_mem_fst '?' _)

/-- Claim C5 as stated fails on the code: `parse_qs` discards query
parameters with a blank value (`keep_blank_values=False`), so they are not
preserved.  On the template URL `https://x/y?campaignId=OLD&z=` the
parameter `z` (blank-valued) is present in the input query but absent — the
character `z` does not occur at all — from the constructed URL. -/
theorem construct_campaign_url_counterexample :
    construct_campaign_url "https://x/y?campaignId=OLD&z=" "NEW" =
      "https://x/y?campaignId=NEW" ∧
    'z' ∈ urlQueryChars "https://x/y?campaignId=OLD&z=" ∧
    'z' ∉ (construct_campaign_url "https://x/y?campaignId=OLD&z=" "NEW").data := by
  refine ⟨by decide, by decide, by decide⟩

/-- Claim C5 (amended): for every template URL and non-empty CampaignId free
of the reserved characters `&` and `#`, the constructed URL consists of
the template's pre-query part (scheme, host, path — preserved verbatim),
one `?`, the re-encoded query, and the template's fragment (preserved when
non-empty); re-parsing the constructed URL's query yields exactly the
template's parsed query with `campaignId` set to the given id — so
`campaignId` maps to the id (replacing any prior value) and every other key
that `parse_qs` retains (those with at least one non-blank value) keeps its
value list unchanged.  Blank-valued parameters are dropped, as the
counterexample shows, which is the one correction to the claim. -/
theorem construct_campaign_url_spec (base cid : String)
    (hamp : '&' ∉ cid.data) (hhash : '#' ∉ cid.data)
    (hne : cid.data ≠ []) :
    urlPreQuery (construct_campaign_url base cid) = urlPreQuery base ∧
    parse_qs (urlQueryChars (construct_campaign_url base cid)) =
      dictAssign (parse_qs (urlQueryChars base)) "campaignId".data [cid.data] ∧
    lookupKey (parse_qs (urlQueryChars (construct_campaign_url base cid)))
      "campaignId".data = some [cid.data] ∧
    (∀ k2, k2 ≠ "campaignId".data →
      lookupKey (parse_qs (urlQueryChars (construct_campaign_url base cid))) k2 =
        lookupKey (parse_qs (urlQueryChars base)) k2) ∧
    (urlFragment base = none → urlFragment (construct_campaign_url base cid) = none) ∧
    (∀ f, urlFragment base = some f → f ≠ [] →
      urlFragment (construct_campaign_url base cid) = some f) := by
  have hdA : DictInv (urlQueryChars base ++ "campaignId".data ++ cid.data)
      (parse_qs (urlQueryChars base)) :=
    DictInv_mono _ _ (fun x hx => List.mem_append_left _ (List.mem_append_left _ hx))
      _ (parse_qs_inv _)
  have hd2 : DictInv (urlQueryChars base ++ "campaignId".data ++ cid.data)
      (dictAssign (parse_qs (urlQueryChars base)) "campaignId".data [cid.data]) := by
    refine dictAssign_inv _ _ _ _ hdA (by decide) (by decide) ?_ (by simp) ?_
    · intro x hx
      exact List.mem_append_left _ (List.mem_append_right _ hx)
    · intro v hv
      rcases List.mem_singleton.mp hv with rfl
      exact ⟨hamp, hne, fun x hx => List.mem_append_right _ hx⟩
  have hround : parse_qs (urlencode (dictAssign (parse_qs (urlQueryChars base))
      "campaignId".data [cid.data])) =
      dictAssign (parse_qs (urlQueryChars base)) "campaignId".data [cid.data] :=
    parse_qs_urlencode _ _ hd2
  have hnophash : '#' ∉ urlencode (dictAssign (parse_qs (urlQueryChars base))
      "campaignId".data [cid.data]) := by
    intro hx
    rcases mem_urlencode _ _ hd2 '#' hx with h | h | h
    · exact absurd h (by decide)
    · exact absurd h (by decide)
    · rcases List.mem_append.mp h with h | h
      · rcases List.mem_append.mp h with h | h
        · exact urlQueryChars_no_hash base h
        · exact absurd h (by decide)
      · exact hhash h
  have hqc : urlQueryChars (construct_campaign_url base cid) =
      urlencode (dictAssign (parse_qs (urlQueryChars base))
        "campaignId".data [cid.data]) := by
    unfold urlQueryChars
    rw [construct_split_q base cid hnophash]
    rfl
  refine ⟨?_, ?_, ?_, ?_, ?_, ?_⟩
  · unfold urlPreQuery
    rw [construct_split_q base cid hnophash]
  · rw [hqc]
    exact hround
  · rw [hqc, hround]
    exact lookupKey_dictAssign_self _ _ _
  · intro k2 hk2
    rw [hqc, hround]
    exact lookupKey_dictAssign_other _ _ _ k2 hk2
  · intro hfr
    unfold urlFragment at hfr ⊢
    rw [construct_split base cid hnophash, hfr]
  · intro f hfr hfe
    unfold urlFragment at hfr ⊢
    rw [construct_split base cid hnophash, hfr]
    dsimp only
    rw [if_neg hfe]

/-- Witness for `construct_campaign_url_spec` on the spec's own example
template: the pre-query part is preserved, `campaignId` is replaced by
`NEW`, and the non-blank parameter `z` keeps its value. -/
theorem construct_campaign_url_spec_witness :
    urlPreQuery (construct_campaign_url "https://x/y?campaignId=OLD&z=1" "NEW") =
      urlPreQuery "https://x/y?campaignId=OLD&z=1" ∧
    lookupKey (parse_qs (urlQueryChars (construct_campaign_url
        "https://x/y?campaignId=OLD&z=1" "NEW"))) "campaignId".data =
      some ["NEW".data] ∧
    lookupKey (parse_qs (urlQueryChars (construct_campaign_url
        "https://x/y?campaignId=OLD&z=1" "NEW"))) "z".data =
      lookupKey (parse_qs (urlQueryChars "https://x/y?campaignId=OLD&z=1"))
        "z".data := by
  have h := construct_campaign_url_spec "https://x/y?campaignId=OLD&z=1" "NEW"
    (by decide) (by decide) (by decide)
  exact ⟨h.1, h.2.2.1, h.2.2.2.1 "z".data (by decide)⟩

end DeviceApplier
